import Mathlib

/-!
# Verification of the wav2amiga transcoding core

Shallow embedding of the wav2amiga TypeScript sources
(`packages/core/src/index.ts`, `packages/resampler-zoh/src/index.ts`,
`apps/cli/src/cli.ts`) and proofs about them.

Modelling conventions:
* JavaScript numbers used as integers are modelled as `Nat`/`Int`.
  JS bitwise operators apply ToInt32 to their operands, so the functions
  that use `&`/`~` are modelled over `Int` with an explicit 32-bit wrap.
* `Int16Array` / `Uint8Array` buffers are modelled as `List Int` / `List Nat`.
* `Math.round(x)` (round half toward +infinity) applied to the
  non-negative quantity `len * (dstHz / srcHz)` is modelled by the exact
  rational rounding `(2*len*dstHz + srcHz) / (2*srcHz)` (floor division),
  i.e. round-half-up on the true ratio.
-/

namespace Wav2Amiga

/-- ToInt32 as performed by JavaScript bitwise operators: wrap an integer
into the range `[-2^31, 2^31)`. -/
def jsToInt32 (x : Int) : Int :=
  (x + 2147483648) % 4294967296 - 2147483648

/-- The unsigned 32-bit representation of an integer (the value modulo `2^32`). -/
def jsUint32 (x : Int) : Nat :=
  (x % 4294967296).toNat

/-- JavaScript `a & b`: ToInt32 both operands, bitwise-and their 32-bit
representations, reinterpret as a signed 32-bit integer. -/
def jsBitAnd (a b : Int) : Int :=
  jsToInt32 (Int.ofNat ((jsUint32 a) &&& (jsUint32 b)))

/-- JavaScript `a >> 8` (arithmetic shift right on the 32-bit value),
i.e. floor division of the ToInt32 value by 256. -/
def jsShr8 (a : Int) : Int :=
  Int.fdiv (jsToInt32 a) 256

/-- `alignTo256` from `packages/core/src/index.ts`:
`(length + 0xff) & ~0xff` (JS `~0xff` evaluates to `-256`). -/
def alignTo256 (length : Int) : Int :=
  jsBitAnd (length + 255) (-256)

/-! ### Arithmetic facts about the 32-bit model -/

theorem jsUint32_ofNat (n : Nat) (h : n < 4294967296) : jsUint32 n = n := by
  unfold jsUint32
  rw [Int.emod_eq_of_lt (by exact_mod_cast Nat.zero_le n) (by exact_mod_cast h)]
  exact Int.toNat_ofNat n

theorem jsUint32_neg256 : jsUint32 (-256) = 4294967040 := by decide

theorem jsToInt32_ofNat (n : Nat) (h : n < 2147483648) : jsToInt32 n = n := by
  unfold jsToInt32
  have h1 : (0 : Int) ≤ (n : Int) + 2147483648 := by positivity
  have h2 : (n : Int) + 2147483648 < 4294967296 := by
    have : (n : Int) < 2147483648 := by exact_mod_cast h
    omega
  rw [Int.emod_eq_of_lt h1 h2]
  omega

/-- Clearing the low 8 bits of a number below `2^32` with the mask
`0xFFFFFF00` rounds it down to a multiple of 256. -/
theorem land_mask_eq (x : Nat) (hx : x < 4294967296) :
    x &&& 4294967040 = x / 256 * 256 := by
  have hmask : (4294967040 : Nat) = (16777215 : Nat) * 2 ^ 8 := by norm_num
  have hform : x / 256 * 256 = (x >>> 8) <<< 8 := by
    rw [Nat.shiftRight_eq_div_pow, Nat.shiftLeft_eq]
  rw [hform]
  apply Nat.eq_of_testBit_eq
  intro i
  rw [Nat.testBit_and, Nat.testBit_shiftLeft, Nat.testBit_shiftRight]
  rcases Nat.lt_or_ge i 8 with hi | hi
  · have hmb : Nat.testBit 4294967040 i = false := by
      interval_cases i <;> decide
    simp [hmb, Nat.not_le.mpr hi]
  · rcases Nat.lt_or_ge i 32 with hi32 | hi32
    · have hmb : Nat.testBit 4294967040 i = true := by
        interval_cases i <;> decide
      have : 8 + (i - 8) = i := by omega
      simp [hmb, hi, this]
    · have hxb : Nat.testBit x i = false := by
        apply Nat.testBit_lt_two_pow
        calc x < 4294967296 := hx
          _ = 2 ^ 32 := by norm_num
          _ ≤ 2 ^ i := Nat.pow_le_pow_right (by norm_num) hi32
      have : 8 + (i - 8) = i := by omega
      simp [hxb, hi, this]

/-- For inputs in the safe range the JS bit trick computes the ideal
round-up-to-256: `alignTo256 n = 256 * ceil(n / 256)`. -/
theorem alignTo256_eq_of_small (n : Nat) (h : n + 255 < 2147483648) :
    alignTo256 n = ((n + 255) / 256 * 256 : Nat) := by
  unfold alignTo256 jsBitAnd
  have hcast : ((n : Int) + 255) = ((n + 255 : Nat) : Int) := by push_cast; ring
  rw [hcast, jsUint32_ofNat (n + 255) (by omega), jsUint32_neg256,
    land_mask_eq (n + 255) (by omega)]
  exact jsToInt32_ofNat _ (by omega)

/-- C4 counterexample: the claim quantifies over every `n ≥ 0`, but the JS
bitwise arithmetic in `alignTo256` works on 32-bit signed values, so at
`n = 2^31` the result is `-2^31`, which is neither `≥ n` nor a round-up.
This refutes `align(n) >= n` "for all n ≥ 0" as stated. -/
theorem c4_align_overflow_counterexample :
    alignTo256 2147483648 = -2147483648 ∧
      ¬ ((2147483648 : Int) ≤ alignTo256 2147483648) := by
  constructor
  · decide
  · decide

/-- C4 (amended): for every `n` with `n + 255 < 2^31` (the range where the
32-bit bit trick is exact), `alignTo256 n` is the least multiple of 256
that is `≥ n`; no padding is added when `n` is already aligned, and in
particular `alignTo256 256 = 256`, not 512.  Outside this range the JS
int32 wrap makes the result negative (see the counterexample). -/
theorem c4_align_least_multiple (n : Nat) (h : n + 255 < 2147483648) :
    alignTo256 n % 256 = 0 ∧
      (n : Int) ≤ alignTo256 n ∧
      (∀ m : Int, (n : Int) ≤ m → m % 256 = 0 → alignTo256 n ≤ m) ∧
      ((n : Int) % 256 = 0 → alignTo256 n = n) ∧
      alignTo256 256 = 256 := by
  rw [alignTo256_eq_of_small n h]
  have hdm := Nat.div_add_mod (n + 255) 256
  have hlt : (n + 255) % 256 < 256 := Nat.mod_lt _ (by norm_num)
  set q := (n + 255) / 256 with hq
  have hk : ((q * 256 : Nat) : Int) = 256 * (q : Int) := by push_cast; ring
  refine ⟨?_, ?_, ?_, ?_, by decide⟩
  · rw [hk]
    omega
  · have : n ≤ q * 256 := by omega
    exact_mod_cast this
  · intro m hnm hm
    obtain ⟨t, ht⟩ := Int.dvd_of_emod_eq_zero hm
    have hkn : q * 256 ≤ n + 255 := by omega
    have h1 : ((q * 256 : Nat) : Int) ≤ (n : Int) + 255 := by exact_mod_cast hkn
    rw [hk] at h1 ⊢
    omega
  · intro hmod
    obtain ⟨t, ht⟩ := Int.dvd_of_emod_eq_zero hmod
    have htn : (0 : Int) ≤ 256 * t := by rw [← ht]; exact_mod_cast Nat.zero_le n
    have ht' : (n : Nat) = 256 * t.toNat := by
      have : ((256 * t.toNat : Nat) : Int) = 256 * t := by
        push_cast
        omega
      exact_mod_cast (by rw [this, ← ht] : ((256 * t.toNat : Nat) : Int) = (n : Nat)).symm
    have : q * 256 = n := by omega
    rw [this]

/-- Witness for the amended C4 theorem at `n = 300`. -/
theorem c4_align_least_multiple_witness :
    (300 : Nat) + 255 < 2147483648 ∧
      ((300 : Nat) : Int) ≤ alignTo256 ((300 : Nat) : Int) :=
  ⟨by norm_num, (c4_align_least_multiple 300 (by norm_num)).2.1⟩

/-! ### Quantizer (`mapPcm16To8Bit` from `packages/core/src/index.ts`) -/

/-- `mapPcm16To8Bit`: for each 16-bit sample `v`, compute
`unsigned16 = v + 32768` and emit `(unsigned16 >>> 8) & 0xff`. -/
def mapPcm16To8Bit (input : List Int) : List Nat :=
  input.map (fun v => ((v + 32768).toNat >>> 8) &&& 0xff)

/-- C5: the quantizer emits one byte per sample in order, each equal to the
unsigned-biased value shifted right 8 bits (i.e. `(v + 32768) / 256`, no
clamping or rounding), with the claimed edge values. -/
theorem c5_quantizer (input : List Int)
    (h : ∀ v ∈ input, -32768 ≤ v ∧ v ≤ 32767) :
    (mapPcm16To8Bit input).length = input.length ∧
      (∀ i, i < input.length →
        (mapPcm16To8Bit input).getD i 0 = (input.getD i 0 + 32768).toNat / 256) ∧
      mapPcm16To8Bit [-32768] = [0] ∧
      mapPcm16To8Bit [0] = [128] ∧
      mapPcm16To8Bit [32767] = [255] ∧
      mapPcm16To8Bit [255] = [128] ∧
      mapPcm16To8Bit [256] = [129] := by
  refine ⟨by simp [mapPcm16To8Bit], ?_, by decide, by decide, by decide, by decide, by decide⟩
  intro i hi
  have hmem : input.getD i 0 ∈ input := by
    rw [List.getD_eq_getElem?_getD, List.getElem?_eq_getElem hi]
    exact List.getElem_mem hi
  obtain ⟨hlo, hhi⟩ := h _ hmem
  set v := input.getD i 0 with hv
  have h1 : (mapPcm16To8Bit input).getD i 0 = ((v + 32768).toNat >>> 8) &&& 0xff := by
    unfold mapPcm16To8Bit
    rw [List.getD_eq_getElem?_getD, List.getElem?_map,
      List.getElem?_eq_getElem hi]
    simp [hv, List.getD_eq_getElem?_getD, List.getElem?_eq_getElem hi]
  rw [h1]
  have hle : (v + 32768).toNat ≤ 65535 := by omega
  have hshift : (v + 32768).toNat >>> 8 = (v + 32768).toNat / 256 := by
    rw [Nat.shiftRight_eq_div_pow]
  have hlt : (v + 32768).toNat / 256 < 256 := by omega
  rw [hshift]
  have h255 : (255 : Nat) = 2 ^ 8 - 1 := by norm_num
  rw [show (0xff : Nat) = 2 ^ 8 - 1 from by norm_num,
    Nat.and_pow_two_sub_one_eq_mod]
  exact Nat.mod_eq_of_lt (by omega)

/-- Witness for C5 at the inputs `[0]` and `[-32768]`. -/
theorem c5_quantizer_witness :
    (mapPcm16To8Bit [(0 : Int)]).length = [(0 : Int)].length ∧
      mapPcm16To8Bit [-32768] = [0] :=
  ⟨(c5_quantizer [(0 : Int)] (by norm_num)).1,
   (c5_quantizer [(0 : Int)] (by norm_num)).2.2.1⟩

/-! ### Rate table (`PAL_PERIODS`, `noteToTargetHz` from `packages/core/src/index.ts`) -/

/-- The PAL period table, transcribed entry by entry from the source. -/
def PAL_PERIODS : List (String × Nat) := [
  ("C-1", 856), ("C#1", 808), ("D-1", 762), ("D#1", 720), ("E-1", 678), ("F-1", 640),
  ("F#1", 604), ("G-1", 570), ("G#1", 538), ("A-1", 508), ("A#1", 480), ("B-1", 452),
  ("C-2", 428), ("C#2", 404), ("D-2", 381), ("D#2", 360), ("E-2", 339), ("F-2", 320),
  ("F#2", 302), ("G-2", 285), ("G#2", 269), ("A-2", 254), ("A#2", 240), ("B-2", 226),
  ("C-3", 214), ("C#3", 202), ("D-3", 190), ("D#3", 180), ("E-3", 170), ("F-3", 160),
  ("F#3", 151), ("G-3", 143), ("G#3", 135), ("A-3", 127), ("A#3", 120), ("B-3", 113),
  ("C-4", 107), ("C#4", 101), ("D-4", 95), ("D#4", 90), ("E-4", 85), ("F-4", 80),
  ("F#4", 76), ("G-4", 71), ("G#4", 67), ("A-4", 64), ("A#4", 60), ("B-4", 57),
  ("C-5", 54), ("C#5", 51), ("D-5", 48), ("D#5", 45), ("E-5", 43), ("F-5", 40),
  ("F#5", 38), ("G-5", 36), ("G#5", 34), ("A-5", 32), ("A#5", 30), ("B-5", 28),
  ("C-6", 27), ("C#6", 25), ("D-6", 24), ("D#6", 22), ("E-6", 21), ("F-6", 20),
  ("F#6", 19), ("G-6", 18), ("G#6", 17), ("A-6", 16), ("A#6", 15), ("B-6", 14),
  ("C-7", 13), ("C#7", 12), ("D-7", 11), ("D#7", 11), ("E-7", 10), ("F-7", 10),
  ("F#7", 9), ("G-7", 9), ("G#7", 8), ("A-7", 8), ("A#7", 7), ("B-7", 7),
  ("C-8", 6), ("C#8", 6), ("D-8", 5), ("D#8", 5), ("E-8", 5), ("F-8", 4),
  ("F#8", 4), ("G-8", 4), ("G#8", 3), ("A-8", 3), ("A#8", 3), ("B-8", 3)]

/-- The member names inherited from `Object.prototype`, which the record
lookup `PAL_PERIODS[note]` reaches through the object literal's prototype
chain.  For these strings the lookup yields an inherited function (or,
for `"__proto__"`, the prototype object itself), not `undefined`. -/
def OBJECT_PROTOTYPE_MEMBERS : List String :=
  ["constructor", "hasOwnProperty", "isPrototypeOf", "propertyIsEnumerable",
   "toLocaleString", "toString", "valueOf", "__defineGetter__",
   "__defineSetter__", "__lookupGetter__", "__lookupSetter__", "__proto__"]

/-- The observable outcomes of `noteToTargetHz`. -/
inductive NoteLookup where
  /-- Normal return of `Math.floor(3546895 / period)`. -/
  | rate (hz : Nat)
  /-- Returned `NaN`: the looked-up value was an inherited non-number, so
  the `=== undefined` guard did not fire and the division produced NaN. -/
  | nan
  /-- Threw the `InvalidNote` error. -/
  | invalidNote
deriving DecidableEq

/-- `noteToTargetHz`: `PAL_PERIODS[note]` looks `note` up among the
object literal's own 96 keys and then along the prototype chain.  An own
key yields its period, and `Math.floor(3546895 / period)` is returned.
An `Object.prototype` member name yields an inherited non-number value,
so the `period === undefined` guard passes and
`Math.floor(3546895 / period)` evaluates to `NaN`, which is returned.
Only every other string throws the InvalidNote error. -/
def noteToTargetHz (note : String) : NoteLookup :=
  match PAL_PERIODS.find? (fun e => e.1 == note) with
  | some e => NoteLookup.rate (3546895 / e.2)
  | none =>
    if note ∈ OBJECT_PROTOTYPE_MEMBERS then NoteLookup.nan
    else NoteLookup.invalidNote

/-- C8 evaluated at the failing input: `"toString"` is not one of the 96
keys (the table has exactly 96 distinct keys), yet the lookup does not
fail with `InvalidNote` — it silently returns `NaN` through the prototype
chain — refuting "fails with an InvalidNote error if and only if the note
string is not one of the table's exactly 96 keys".  The rest of the
claim's behaviour holds: known notes divide by their period with floor
division (`"C-2"` yields 8287) and strings outside both the table and
`Object.prototype` throw. -/
theorem c8_prototype_chain_bug :
    noteToTargetHz "toString" = NoteLookup.nan ∧
      "toString" ∉ PAL_PERIODS.map Prod.fst ∧
      noteToTargetHz "valueOf" = NoteLookup.nan ∧
      noteToTargetHz "__proto__" = NoteLookup.nan ∧
      PAL_PERIODS.length = 96 ∧
      (PAL_PERIODS.map Prod.fst).Nodup ∧
      noteToTargetHz "C-2" = NoteLookup.rate 8287 ∧
      noteToTargetHz "H-5" = NoteLookup.invalidNote := by
  refine ⟨by decide, by decide, by decide, by decide, by decide, by decide,
    by decide, by decide⟩

/-! ### ZOH resampler (`resamplePCM16` from `packages/resampler-zoh/src/index.ts`) -/

/-- The inner `while (acc >= dstHz)` loop of the resampler: subtract
`dstHz` from `acc` and advance `idx` (clamped below `len`) until
`acc < dstHz`.  The extra fuel argument makes the recursion structural;
`advLoop` below supplies `acc` itself as fuel, which is sufficient
whenever `dstHz ≥ 1` (for `dstHz = 0` the JS loop would not terminate). -/
def advFuel (dstHz len : Nat) : Nat → Nat → Nat → Nat × Nat
  | 0, acc, idx => (acc, idx)
  | fuel + 1, acc, idx =>
    if dstHz ≤ acc then
      advFuel dstHz len fuel (acc - dstHz) (if idx + 1 < len then idx + 1 else idx)
    else (acc, idx)

/-- The inner while loop with enough fuel to run to completion. -/
def advLoop (dstHz len acc idx : Nat) : Nat × Nat :=
  advFuel dstHz len acc acc idx

/-- The main `for (n = 0; n < outLen; n++)` loop of the resampler: emit
`input[idx]`, add `srcHz` to the accumulator, then run the advance loop. -/
def zohLoop (input : List Int) (srcHz dstHz : Nat) : Nat → Nat → Nat → List Int
  | 0, _, _ => []
  | n + 1, acc, idx =>
    input.getD idx 0 ::
      (let r := advLoop dstHz input.length (acc + srcHz) idx
       zohLoop input srcHz dstHz n r.1 r.2)

/-- The output-length formula of the spec, exact round-half-up on the
true ratio: `floor(len * d / s + 1/2) = (2 * len * d + s) / (2 * s)`.
This is the rounding rule the spec prescribes for
`Math.round(input.length * (dstHz / srcHz))`; the source's actual IEEE
double computation (`outLenFP` below) can differ from it at exact-half
boundaries of the true ratio.  The per-sample theorems below describe
the emitted samples relative to whatever length the loop is run with. -/
def outLenJS (len srcHz dstHz : Nat) : Nat :=
  (2 * len * dstHz + srcHz) / (2 * srcHz)

/-- `resamplePCM16`: identical rates return a copy; otherwise emit
`outLen` zero-order-hold samples (an empty list when `outLen = 0`). -/
def resamplePCM16 (input : List Int) (srcHz dstHz : Nat) : List Int :=
  if srcHz = dstHz then input
  else
    let outLen := outLenJS input.length srcHz dstHz
    if outLen = 0 then []
    else zohLoop input srcHz dstHz outLen 0 0

theorem min_add_min (a q L : Nat) : min (min a L + q) L = min (a + q) L := by
  simp only [Nat.min_def]
  split_ifs <;> omega

theorem min_succ_add (idx q L : Nat) (h : idx ≤ L) :
    min (min (idx + 1) L + q) L = min (idx + (q + 1)) L := by
  simp only [Nat.min_def]
  split_ifs <;> omega

/-- The advance loop fully reduces the accumulator modulo `dstHz` and
moves the cursor forward by the number of subtractions, clamped at
`len - 1`. -/
theorem advFuel_spec (d len : Nat) (hd : 0 < d) :
    ∀ fuel acc idx, acc ≤ fuel → idx < len →
      advFuel d len fuel acc idx = (acc % d, min (idx + acc / d) (len - 1)) := by
  intro fuel
  induction fuel with
  | zero =>
    intro acc idx hacc hidx
    have : acc = 0 := Nat.le_zero.mp hacc
    subst this
    simp [advFuel, Nat.zero_div, Nat.zero_mod]
    omega
  | succ fuel ih =>
    intro acc idx hacc hidx
    rw [advFuel]
    split
    · rename_i hle
      have hidx' : (if idx + 1 < len then idx + 1 else idx) < len := by
        split <;> omega
      rw [ih (acc - d) _ (by omega) hidx']
      have hmod : (acc - d) % d = acc % d := by
        conv_rhs => rw [show acc = (acc - d) + d by omega]
        rw [Nat.add_mod_right]
      have hdiv : acc / d = (acc - d) / d + 1 := by
        conv_lhs => rw [show acc = (acc - d) + d by omega]
        rw [Nat.add_div_right _ hd]
      rw [hmod, hdiv]
      have hif : (if idx + 1 < len then idx + 1 else idx) = min (idx + 1) (len - 1) := by
        split <;> omega
      rw [hif]
      congr 1
      exact min_succ_add idx ((acc - d) / d) (len - 1) (by omega)
    · rename_i hgt
      have hlt : acc < d := by omega
      rw [Nat.mod_eq_of_lt hlt, Nat.div_eq_of_lt hlt]
      simp
      omega

/-- Closed form of the main loop: starting from the loop state reached
after `n0` iterations, the next `fuel` outputs are the zero-order-hold
samples `input[min((n0+k)*srcHz / dstHz, len-1)]`. -/
theorem zohLoop_eq_map (input : List Int) (s d : Nat) (hd : 0 < d)
    (hlen : 0 < input.length) :
    ∀ fuel n0,
      zohLoop input s d fuel ((n0 * s) % d) (min (n0 * s / d) (input.length - 1)) =
        (List.range fuel).map
          (fun k => input.getD (min ((n0 + k) * s / d) (input.length - 1)) 0) := by
  intro fuel
  induction fuel with
  | zero => intro n0; simp [zohLoop]
  | succ fuel ih =>
    intro n0
    have hidx : min (n0 * s / d) (input.length - 1) < input.length := by omega
    have hadv :=
      advFuel_spec d input.length hd ((n0 * s) % d + s) ((n0 * s) % d + s)
        (min (n0 * s / d) (input.length - 1)) (Nat.le_refl _) hidx
    have hmod : ((n0 * s) % d + s) % d = ((n0 + 1) * s) % d := by
      rw [Nat.mod_add_mod, Nat.succ_mul]
    have hdiv : (n0 + 1) * s / d = n0 * s / d + ((n0 * s) % d + s) / d := by
      have h1 : (n0 + 1) * s = d * (n0 * s / d) + ((n0 * s) % d + s) := by
        have := Nat.div_add_mod (n0 * s) d
        rw [Nat.succ_mul]
        omega
      rw [h1, Nat.mul_add_div hd]
    have hstate :
        min (min (n0 * s / d) (input.length - 1) + ((n0 * s) % d + s) / d)
            (input.length - 1) =
          min ((n0 + 1) * s / d) (input.length - 1) := by
      rw [hdiv]
      exact min_add_min (n0 * s / d) ((n0 * s % d + s) / d) (input.length - 1)
    rw [zohLoop]
    show input.getD (min (n0 * s / d) (input.length - 1)) 0 ::
        zohLoop input s d fuel
          (advLoop d input.length ((n0 * s) % d + s)
            (min (n0 * s / d) (input.length - 1))).1
          (advLoop d input.length ((n0 * s) % d + s)
            (min (n0 * s / d) (input.length - 1))).2 = _
    rw [advLoop, hadv]
    show input.getD (min (n0 * s / d) (input.length - 1)) 0 ::
        zohLoop input s d fuel (((n0 * s) % d + s) % d)
          (min (min (n0 * s / d) (input.length - 1) + ((n0 * s) % d + s) / d)
            (input.length - 1)) = _
    rw [hmod, hstate, ih (n0 + 1), List.range_succ_eq_map, List.map_cons, List.map_map]
    congr 1
    refine List.map_congr_left fun k hk => ?_
    simp only [Function.comp_apply, Nat.succ_eq_add_one]
    rw [show n0 + 1 + k = n0 + (k + 1) from by omega]

/-- For distinct positive rates and non-empty input, the resampler output
is literally the list of held samples `input[min(n*s/d, len-1)]` for
`n < outLen`. -/
theorem resamplePCM16_eq_map (input : List Int) (s d : Nat) (hs : 0 < s)
    (hd : 0 < d) (hne : s ≠ d) (hlen : 0 < input.length) :
    resamplePCM16 input s d =
      (List.range (outLenJS input.length s d)).map
        (fun n => input.getD (min (n * s / d) (input.length - 1)) 0) := by
  unfold resamplePCM16
  rw [if_neg hne]
  show (if outLenJS input.length s d = 0 then []
        else zohLoop input s d (outLenJS input.length s d) 0 0) = _
  rcases Nat.eq_zero_or_pos (outLenJS input.length s d) with hz | hp
  · rw [hz]
    simp
  · rw [if_neg (by omega)]
    have h0 := zohLoop_eq_map input s d hd hlen (outLenJS input.length s d) 0
    simpa using h0

/-! ### The output length as the source actually computes it

`Math.round(input.length * (dstHz / srcHz))` is evaluated in IEEE
binary64: the division `dstHz / srcHz` rounds to the nearest double
(ties to even), the multiplication by the (exactly representable)
length rounds again, and ECMAScript `Math.round` then takes
`floor(x + 1/2)` of the resulting double's exact nonnegative value.
The model below implements this bit-exactly with integer arithmetic,
for inputs in the normal, non-overflowing double range (lengths and
rates far below 2^52). -/

/-- Fuel-driven floor of log2 (the number itself always suffices as
fuel). -/
def natLog2fuel : Nat → Nat → Nat
  | 0, _ => 0
  | fuel + 1, n => if n ≤ 1 then 0 else natLog2fuel fuel (n / 2) + 1

/-- `floor(log2 n)` for `n ≥ 1` (and 0 at 0). -/
def natLog2 (n : Nat) : Nat := natLog2fuel n n

/-- Round the exact fraction `a / b` to the nearest integer, ties to
even — IEEE round-to-nearest-even applied to an exact quotient whose
rounding target is an integer. -/
def rneDiv (a b : Nat) : Nat :=
  let q := a / b
  let r := a % b
  if 2 * r < b then q
  else if b < 2 * r then q + 1
  else if q % 2 = 0 then q else q + 1

/-- The binary64 (double) value of `a / b` for positive integers `a`,
`b` in the normal range, as a pair `(M, m)`: `m = floor(log2 (a / b))`
is the exponent, found from a 60-bit-headroom fixed-point quotient, and
`M = rne(a / b · 2 ^ (52 - m))` is the 53-bit significand, so the
double's exact value is `M · 2 ^ (m - 52)`. -/
def fl64Pair (a b : Nat) : Nat × Int :=
  let s := 60 + natLog2 b
  let L := natLog2 (a * 2 ^ s / b)
  let m : Int := (L : Int) - s
  if m ≤ 52 then
    (rneDiv (a * 2 ^ (52 - m).toNat) b, m)
  else
    (rneDiv a (b * 2 ^ (m - 52).toNat), m)

/-- `Math.round(input.length * (dstHz / srcHz))` computed exactly as the
source does in IEEE doubles: `dstHz / srcHz` rounds to a double
`M₁ · 2 ^ (m₁ - 52)`; the product `len · M₁` (the length is exactly
representable) rounds again to a 53-bit significand `M₂` with exponent
`e₂`; ECMAScript `Math.round` then takes `floor(x + 1/2)` of that
double's exact value.  `srcHz = 0` — division by zero, an infinite
ratio — is outside the modelled domain and mapped to 0. -/
def outLenFP (len srcHz dstHz : Nat) : Nat :=
  if len = 0 then 0
  else if srcHz = 0 then 0
  else if dstHz = 0 then 0
  else
    let p := fl64Pair dstHz srcHz
    let P := len * p.1
    let t := natLog2 P
    let M2 : Nat := if t ≤ 52 then P else rneDiv P (2 ^ (t - 52))
    let e2 : Int := (p.2 - 52) + if t ≤ 52 then 0 else ((t - 52 : Nat) : Int)
    if 0 ≤ e2 then M2 * 2 ^ e2.toNat
    else (2 * M2 + 2 ^ (-e2).toNat) / 2 ^ ((-e2).toNat + 1)

/-- C2 evaluated at the failing inputs: for 27 samples resampled from
6 Hz to 13 Hz the true ratio gives `27 · 13 / 6 = 58.5`, so the claimed
round-half-away-from-zero law (`outLenJS`, the exact rational rule)
demands 59 output samples, but the doubles compute
`27 * (13 / 6) = 58.49999999999999` and the program emits 58
(`outLenFP`, the bit-exact model of the source's float expression);
likewise 49 samples from 98 Hz to 1 Hz give 0 output samples where the
claimed law demands 1.  Away from such representation boundaries the
two rules agree, e.g. on identity and on typical rate pairs. -/
theorem c2_outlen_float_bug :
    outLenFP 27 6 13 = 58 ∧ outLenJS 27 6 13 = 59 ∧
      outLenFP 49 98 1 = 0 ∧ outLenJS 49 98 1 = 1 ∧
      outLenFP 44100 44100 8287 = outLenJS 44100 44100 8287 ∧
      outLenFP 100 48000 22050 = outLenJS 100 48000 22050 ∧
      outLenFP 100 8000 44100 = outLenJS 100 8000 44100 := by
  refine ⟨by decide, by decide, by decide, by decide, by decide, by decide,
    by decide⟩

/-- C10: every output sample of the resampler is an input sample, read
through the cursor `min(n * srcHz / dstHz, len - 1)`, which never leaves
the input's bounds and never decreases; the resampler never synthesizes a
value absent from the input. -/
theorem c10_resampler_cursor (x : List Int) (s d : Nat) (hs : 0 < s)
    (hd : 0 < d) (hx : x ≠ []) :
    (∀ n, n < (resamplePCM16 x s d).length →
        min (n * s / d) (x.length - 1) < x.length ∧
        (resamplePCM16 x s d).getD n 0 =
          x.getD (min (n * s / d) (x.length - 1)) 0) ∧
      (∀ n m : Nat, n ≤ m →
        min (n * s / d) (x.length - 1) ≤ min (m * s / d) (x.length - 1)) := by
  have hlen : 0 < x.length := List.length_pos.mpr hx
  constructor
  · intro n hn
    refine ⟨by omega, ?_⟩
    by_cases hne : s = d
    · subst hne
      unfold resamplePCM16 at hn ⊢
      rw [if_pos rfl] at hn ⊢
      have hq : n * s / s = n := by
        rw [Nat.mul_div_cancel n hs]
      rw [hq]
      have : min n (x.length - 1) = n := by omega
      rw [this]
    · rw [resamplePCM16_eq_map x s d hs hd hne hlen] at hn ⊢
      rw [List.length_map, List.length_range] at hn
      rw [List.getD_eq_getElem?_getD, List.getElem?_map, List.getElem?_range hn]
      rfl
  · intro n m hnm
    exact min_le_min (Nat.div_le_div_right (Nat.mul_le_mul_right s hnm)) (le_refl _)

/-- Witness for C10 at `x = [4, 5]`, `s = 3`, `d = 2`, `n = 0`. -/
theorem c10_resampler_cursor_witness :
    min (0 * 3 / 2) (([(4 : Int), 5]).length - 1) < ([(4 : Int), 5]).length ∧
      (resamplePCM16 [(4 : Int), 5] 3 2).getD 0 0 =
        ([(4 : Int), 5]).getD (min (0 * 3 / 2) (([(4 : Int), 5]).length - 1)) 0 :=
  (c10_resampler_cursor [(4 : Int), 5] 3 2 (by norm_num) (by norm_num)
    (by simp)).1 0 (by decide)

/-! ### Ceiling-division helpers for the impulse-run analysis -/

theorem ceil_le_iff (s a n : Nat) (hs : 0 < s) :
    (a + s - 1) / s ≤ n ↔ a ≤ n * s := by
  rw [Nat.div_le_iff_le_mul_add_pred hs]
  have hc : s * n = n * s := Nat.mul_comm s n
  omega

theorem lt_ceil_iff (s c n : Nat) (hs : 0 < s) :
    n < (c + s - 1) / s ↔ n * s < c := by
  rw [← Nat.not_le, ceil_le_iff s c n hs]
  omega

theorem ceilDiv_eq (s c : Nat) (hs : 0 < s) :
    (c + s - 1) / s = c / s + (if c % s = 0 then 0 else 1) := by
  have hdm := Nat.div_add_mod c s
  have hml : c % s < s := Nat.mod_lt _ hs
  rcases Nat.eq_zero_or_pos (c % s) with h0 | hpos
  · rw [h0, if_pos rfl]
    have h1 : c + s - 1 = s * (c / s) + (s - 1) := by omega
    have h2 : (s - 1) / s = 0 := Nat.div_eq_of_lt (by omega)
    rw [h1, Nat.mul_add_div hs, h2]
  · rw [if_neg (by omega)]
    have hmul : s * (c / s + 1) = s * (c / s) + s := by ring
    have h1 : c + s - 1 = s * (c / s + 1) + (c % s - 1) := by omega
    have h2 : (c % s - 1) / s = 0 := Nat.div_eq_of_lt (by omega)
    rw [h1, Nat.mul_add_div hs, h2]

/-- The gap between consecutive ceilings `ceil((a+e)/s) - ceil(a/s)` is
either `floor(e/s)` or `ceil(e/s)`. -/
theorem ceil_diff_mem (s a e : Nat) (hs : 0 < s) :
    (a + e + s - 1) / s - (a + s - 1) / s = e / s ∨
      (a + e + s - 1) / s - (a + s - 1) / s = (e + s - 1) / s := by
  rw [ceilDiv_eq s (a + e) hs, ceilDiv_eq s a hs, ceilDiv_eq s e hs]
  have hadd : (a + e) / s = a / s + e / s + if s ≤ a % s + e % s then 1 else 0 :=
    Nat.add_div hs
  have hmod : (a + e) % s = (a % s + e % s) % s := Nat.add_mod a e s
  have hma : a % s < s := Nat.mod_lt _ hs
  have hme : e % s < s := Nat.mod_lt _ hs
  have hmm : (a % s + e % s) % s =
      if s ≤ a % s + e % s then a % s + e % s - s else a % s + e % s := by
    split
    · rename_i hcar
      rw [Nat.mod_eq_sub_mod hcar, Nat.mod_eq_of_lt (by omega)]
    · rename_i hcar
      rw [Nat.mod_eq_of_lt (by omega)]
  rw [hadd, hmod, hmm]
  revert hma hme
  generalize a / s = qa
  generalize e / s = qe
  generalize a % s = ra
  generalize e % s = re
  intro hma hme
  split_ifs <;> omega

/-- C9 counterexample: upsampling the single-impulse input `[0, 7]` from
10 Hz to 11 Hz (ratio k = 1.1) produces `[0, 0]`: the impulse vanishes
entirely, so the output does not contain a run of exactly `floor(k) = 1`
or `ceil(k) = 2` consecutive non-zero samples as the claim requires. -/
theorem c9_impulse_counterexample :
    resamplePCM16 [0, 7] 10 11 = [0, 0] ∧
      List.countP (fun v => decide (v ≠ 0)) [(0 : Int), 7] = 1 ∧
      List.countP (fun v => decide (v ≠ 0)) (resamplePCM16 [0, 7] 10 11) = 0 ∧
      (11 : Nat) / 10 = 1 := by
  refine ⟨by decide, by decide, by decide, by decide⟩

theorem outLen_hi (len s d : Nat) (hs : 0 < s) :
    2 * (s * outLenJS len s d) ≤ 2 * (len * d) + s := by
  unfold outLenJS
  have hdm := Nat.div_add_mod (2 * len * d + s) (2 * s)
  have hmlt : (2 * len * d + s) % (2 * s) < 2 * s := Nat.mod_lt _ (by omega)
  have h2m : 2 * len * d = 2 * (len * d) := by ring
  have hmul : 2 * s * ((2 * len * d + s) / (2 * s)) =
      2 * (s * ((2 * len * d + s) / (2 * s))) := by ring
  omega

theorem outLen_lo (len s d : Nat) (hs : 0 < s) :
    2 * (len * d) < 2 * (s * outLenJS len s d) + s := by
  unfold outLenJS
  have hdm := Nat.div_add_mod (2 * len * d + s) (2 * s)
  have hmlt : (2 * len * d + s) % (2 * s) < 2 * s := Nat.mod_lt _ (by omega)
  have h2m : 2 * len * d = 2 * (len * d) := by ring
  have hmul : 2 * s * ((2 * len * d + s) / (2 * s)) =
      2 * (s * ((2 * len * d + s) / (2 * s))) := by ring
  omega

/-- C9 (amended): for a single-impulse input upsampled from `s` to `d > s`
Hz, the non-zero output samples occupy exactly the consecutive interval
`[ceil(p*d/s), min(ceil((p+1)*d/s), outLen))` and all equal the impulse
value, with zeros elsewhere (never non-adjacent).  When the impulse is not
at the last input position the run length is exactly `floor(d/s)` or
`ceil(d/s)`; when it is at the last position the run is truncated by the
output length and may be any length up to `ceil(d/s)`, including zero
(see the counterexample). -/
theorem c9_impulse_run (x : List Int) (s d p : Nat) (hs : 0 < s) (hsd : s < d)
    (hp : p < x.length) (hnz : x.getD p 0 ≠ 0)
    (hz : ∀ i, i < x.length → i ≠ p → x.getD i 0 = 0) :
    (∀ n, n < outLenJS x.length s d →
        (resamplePCM16 x s d).getD n 0 =
          if (p * d + s - 1) / s ≤ n ∧
              n < min (((p + 1) * d + s - 1) / s) (outLenJS x.length s d)
          then x.getD p 0 else 0) ∧
      (p + 1 < x.length →
        min (((p + 1) * d + s - 1) / s) (outLenJS x.length s d)
            - (p * d + s - 1) / s = d / s ∨
          min (((p + 1) * d + s - 1) / s) (outLenJS x.length s d)
            - (p * d + s - 1) / s = (d + s - 1) / s) ∧
      min (((p + 1) * d + s - 1) / s) (outLenJS x.length s d)
          - (p * d + s - 1) / s ≤ (d + s - 1) / s := by
  have hd : 0 < d := by omega
  have hne : s ≠ d := by omega
  have hlen : 0 < x.length := by omega
  -- if p is not the last input position, the run's right end is within range
  have hB0L : p + 1 < x.length →
      ((p + 1) * d + s - 1) / s ≤ outLenJS x.length s d := by
    intro h
    rw [ceil_le_iff s ((p + 1) * d) (outLenJS x.length s d) hs]
    have hmm1 : (p + 1) * d ≤ (x.length - 1) * d :=
      Nat.mul_le_mul_right d (by omega)
    have hmm2 : (x.length - 1) * d + d = x.length * d := by
      have h1 : x.length - 1 + 1 = x.length := by omega
      calc (x.length - 1) * d + d = (x.length - 1 + 1) * d := by ring
        _ = x.length * d := by rw [h1]
    have hlo := outLen_lo x.length s d hs
    have hls : outLenJS x.length s d * s = s * outLenJS x.length s d :=
      Nat.mul_comm _ s
    omega
  -- every emitted position reads strictly inside the input when scaled
  have hnB : ∀ n, n < outLenJS x.length s d → n * s < x.length * d := by
    intro n hn
    have hms : n * s + s ≤ outLenJS x.length s d * s := by
      calc n * s + s = (n + 1) * s := by ring
        _ ≤ outLenJS x.length s d * s := Nat.mul_le_mul_right s hn
    have hhi := outLen_hi x.length s d hs
    have hls : outLenJS x.length s d * s = s * outLenJS x.length s d :=
      Nat.mul_comm _ s
    omega
  refine ⟨?_, ?_, ?_⟩
  · intro n hn
    have hout : (resamplePCM16 x s d).getD n 0 =
        x.getD (min (n * s / d) (x.length - 1)) 0 := by
      rw [resamplePCM16_eq_map x s d hs hd hne hlen,
        List.getD_eq_getElem?_getD, List.getElem?_map, List.getElem?_range hn]
      rfl
    have hcle := ceil_le_iff s (p * d) n hs
    have hclt := lt_ceil_iff s ((p + 1) * d) n hs
    have hfl1 : p ≤ n * s / d ↔ p * d ≤ n * s := Nat.le_div_iff_mul_le hd
    have hfl2 : n * s / d < p + 1 ↔ n * s < (p + 1) * d :=
      Nat.div_lt_iff_lt_mul hd
    by_cases hclast : p + 1 < x.length
    · rw [hout, Nat.min_eq_left (hB0L hclast)]
      by_cases hcc : min (n * s / d) (x.length - 1) = p
      · have hq : n * s / d = p := by
          rcases Nat.le_total (n * s / d) (x.length - 1) with h | h
          · rwa [Nat.min_eq_left h] at hcc
          · rw [Nat.min_eq_right h] at hcc
            omega
        rw [hcc, if_pos]
        constructor
        · exact hcle.mpr (hfl1.mp (by omega))
        · exact hclt.mpr (hfl2.mp (by omega))
      · have hcl : min (n * s / d) (x.length - 1) < x.length := by omega
        have hval : x.getD (min (n * s / d) (x.length - 1)) 0 = 0 :=
          hz _ hcl hcc
        have hcond : ¬((p * d + s - 1) / s ≤ n ∧
            n < ((p + 1) * d + s - 1) / s) := by
          rintro ⟨h1, h2⟩
          have hq1 : p ≤ n * s / d := hfl1.mpr (hcle.mp h1)
          have hq2 : n * s / d < p + 1 := hfl2.mpr (hclt.mp h2)
          apply hcc
          have : n * s / d = p := by omega
          rw [this]
          exact Nat.min_eq_left (by omega)
        rw [hval, if_neg hcond]
    · have hp1 : p + 1 = x.length := by omega
      have hnb0 : n < ((p + 1) * d + s - 1) / s := by
        rw [hclt, hp1]
        exact hnB n hn
      by_cases hcc : min (n * s / d) (x.length - 1) = p
      · have hq : p ≤ n * s / d := by
          rcases Nat.le_total (n * s / d) (x.length - 1) with h | h
          · rw [Nat.min_eq_left h] at hcc
            omega
          · omega
        have hA : (p * d + s - 1) / s ≤ n := hcle.mpr (hfl1.mp hq)
        rw [hout, hcc, if_pos ⟨hA, Nat.lt_min.mpr ⟨hnb0, hn⟩⟩]
      · have hcl : min (n * s / d) (x.length - 1) < x.length := by omega
        have hval : x.getD (min (n * s / d) (x.length - 1)) 0 = 0 :=
          hz _ hcl hcc
        have hcond : ¬((p * d + s - 1) / s ≤ n ∧
            n < min (((p + 1) * d + s - 1) / s) (outLenJS x.length s d)) := by
          rintro ⟨h1, _⟩
          have hq1 : p ≤ n * s / d := hfl1.mpr (hcle.mp h1)
          apply hcc
          rw [Nat.min_eq_right (by omega)]
          omega
        rw [hout, hval, if_neg hcond]
  · intro h
    rw [Nat.min_eq_left (hB0L h),
      show (p + 1) * d = p * d + d from by ring]
    exact ceil_diff_mem s (p * d) d hs
  · by_cases h : p + 1 < x.length
    · rw [Nat.min_eq_left (hB0L h),
        show (p + 1) * d = p * d + d from by ring]
      rcases ceil_diff_mem s (p * d) d hs with heq | heq
      · rw [heq]
        exact Nat.div_le_div_right (by omega)
      · rw [heq]
    · have hp1 : p + 1 = x.length := by omega
      have h1 : p * d ≤ (p * d + s - 1) / s * s :=
        (ceil_le_iff s (p * d) ((p * d + s - 1) / s) hs).mp (le_refl _)
      have h2 : d ≤ (d + s - 1) / s * s :=
        (ceil_le_iff s d ((d + s - 1) / s) hs).mp (le_refl _)
      have hhi := outLen_hi x.length s d hs
      obtain ⟨A, hA⟩ : ∃ A, (p * d + s - 1) / s = A := ⟨_, rfl⟩
      obtain ⟨C, hC⟩ : ∃ C, (d + s - 1) / s = C := ⟨_, rfl⟩
      obtain ⟨L, hL⟩ : ∃ L, outLenJS x.length s d = L := ⟨_, rfl⟩
      rw [hA] at h1
      rw [hC] at h2
      rw [hL] at hhi
      rw [hA, hC, hL]
      have hminle : min (((p + 1) * d + s - 1) / s) L ≤ L := Nat.min_le_right _ _
      obtain ⟨M, hM⟩ : ∃ M, min (((p + 1) * d + s - 1) / s) L = M := ⟨_, rfl⟩
      rw [hM] at hminle ⊢
      by_contra hcon
      have hLge : A + C + 1 ≤ L := by omega
      have hmul := Nat.mul_le_mul_left s hLge
      have hexp : s * (A + C + 1) = s * A + s * C + s := by ring
      have hc1 : A * s = s * A := Nat.mul_comm A s
      have hc2 : C * s = s * C := Nat.mul_comm C s
      have hpd2 : x.length * d = p * d + d := by
        calc x.length * d = (p + 1) * d := by rw [hp1]
          _ = p * d + d := by ring
      omega

/-- Witness for the amended C9 theorem: `x = [0, 5, 0]`, `s = 2`, `d = 5`,
impulse at `p = 1`, sampled at output position `n = 3`. -/
theorem c9_impulse_run_witness :
    (resamplePCM16 [(0 : Int), 5, 0] 2 5).getD 3 0 =
      if (1 * 5 + 2 - 1) / 2 ≤ 3 ∧
          3 < min (((1 + 1) * 5 + 2 - 1) / 2)
            (outLenJS ([(0 : Int), 5, 0]).length 2 5)
      then ([(0 : Int), 5, 0]).getD 1 0 else 0 :=
  (c9_impulse_run [(0 : Int), 5, 0] 2 5 1 (by norm_num) (by norm_num)
    (by norm_num) (by decide) (by decide)).1 3 (by decide)

/-! ### Alignment/stacking engine
(`buildStacked`, `buildStackedEqual`, `formatOffsetHex` from
`packages/core/src/index.ts`) -/

/-- Result of `buildStacked`. -/
structure BuiltStack where
  output : List Nat
  starts : List Int

/-- Result of `buildStackedEqual`. -/
structure BuiltStackEqual where
  output : List Nat
  starts : List Int
  slot : Int

/-- Model of `output.set(part, offset)` for an in-bounds typed-array write:
replace the bytes of `dst` at positions `[off, off + src.length)` by `src`. -/
def setBytes (dst src : List Nat) (off : Nat) : List Nat :=
  dst.take off ++ src ++ dst.drop (off + src.length)

/-- First loop of `buildStacked`: record each start offset while advancing
`currentOffset` by the aligned length. -/
def stackedStarts : List (List Nat) → Int → List Int
  | [], _ => []
  | part :: rest, off => off :: stackedStarts rest (off + alignTo256 part.length)

/-- Final value of `currentOffset` in `buildStacked` (the total length). -/
def stackedTotal : List (List Nat) → Int → Int
  | [], off => off
  | part :: rest, off => stackedTotal rest (off + alignTo256 part.length)

/-- Second loop of `buildStacked`: copy each part at its running offset. -/
def stackedWrite : List (List Nat) → List Nat → Int → List Nat
  | [], output, _ => output
  | part :: rest, output, off =>
    stackedWrite rest (setBytes output part off.toNat) (off + alignTo256 part.length)

/-- `buildStacked`: sequential layout with per-part 256-byte alignment;
the output buffer starts as zeros (`new Uint8Array(totalLength)`). -/
def buildStacked (parts : List (List Nat)) : BuiltStack :=
  { output := stackedWrite parts (List.replicate (stackedTotal parts 0).toNat 0) 0
    starts := stackedStarts parts 0 }

/-- The write loop of `buildStackedEqual`: part `i` is copied at `i * slot`. -/
def equalWrite : List (List Nat) → List Nat → Int → Nat → List Nat
  | [], output, _, _ => output
  | part :: rest, output, slot, i =>
    equalWrite rest (setBytes output part ((i : Int) * slot).toNat) slot (i + 1)

/-- `buildStackedEqual`: uniform slots sized by the largest aligned part;
empty input short-circuits to an empty result. -/
def buildStackedEqual (parts : List (List Nat)) : BuiltStackEqual :=
  match parts with
  | [] => { output := [], starts := [], slot := 0 }
  | part :: rest =>
    let slot :=
      (rest.map (fun q => alignTo256 q.length)).foldl max (alignTo256 part.length)
    { output :=
        equalWrite (part :: rest)
          (List.replicate ((((part :: rest).length : Int) * slot).toNat) 0) slot 0
      starts := (List.range (part :: rest).length).map (fun i : Nat => (i : Int) * slot)
      slot := slot }

/-- Uppercase hexadecimal digits of `n` (JS `n.toString(16).toUpperCase()`). -/
def natToHexUpper (n : Nat) : String :=
  ((Nat.toDigits 16 n).map Char.toUpper).asString

/-- `formatOffsetHex`: uppercase hex of `max 0 n`, left-padded with `0` to
at least two characters. -/
def formatOffsetHex (n : Int) : String :=
  let h := natToHexUpper (max 0 n).toNat
  if h.length < 2 then ⟨List.replicate (2 - h.length) '0'⟩ ++ h else h

/-! ### Bounds-respecting write lemmas -/

theorem setBytes_length (dst src : List Nat) (off : Nat)
    (h : off + src.length ≤ dst.length) :
    (setBytes dst src off).length = dst.length := by
  unfold setBytes
  rw [List.length_append, List.length_append, List.length_take, List.length_drop]
  omega

theorem setBytes_getD_inside (dst src : List Nat) (off j : Nat)
    (hfit : off + src.length ≤ dst.length) (hj : j < src.length) :
    (setBytes dst src off).getD (off + j) 0 = src.getD j 0 := by
  unfold setBytes
  have hlt : (dst.take off).length = off := by
    rw [List.length_take]
    omega
  rw [List.getD_eq_getElem?_getD, List.getD_eq_getElem?_getD,
    List.append_assoc, List.getElem?_append_right (by omega), hlt]
  have : off + j - off = j := by omega
  rw [this, List.getElem?_append_left (by omega)]

theorem setBytes_getD_outside (dst src : List Nat) (off pos : Nat)
    (hfit : off + src.length ≤ dst.length)
    (h : pos < off ∨ off + src.length ≤ pos) :
    (setBytes dst src off).getD pos 0 = dst.getD pos 0 := by
  unfold setBytes
  have hlt : (dst.take off).length = off := by
    rw [List.length_take]
    omega
  rcases h with h | h
  · rw [List.getD_eq_getElem?_getD, List.getD_eq_getElem?_getD,
      List.append_assoc, List.getElem?_append_left (by omega),
      List.getElem?_take_of_lt h]
  · rw [List.getD_eq_getElem?_getD, List.getD_eq_getElem?_getD,
      List.append_assoc, List.getElem?_append_right (by omega), hlt,
      List.getElem?_append_right (by omega : src.length ≤ pos - off),
      List.getElem?_drop]
    have harith : off + src.length + (pos - off - src.length) = pos := by omega
    rw [harith]

/-! ### Nat-level forms of the stacking loops

In the range where no 32-bit wrap occurs (`alignTo256_eq_of_small`) the
Int-valued loops above coincide with the following pure-`Nat` recursions,
which the indexing proofs are carried out on. -/

/-- The ideal round-up-to-256 (what `alignTo256` computes in range). -/
def alignNat (n : Nat) : Nat := (n + 255) / 256 * 256

/-- Sum of aligned part lengths (the final `currentOffset`). -/
def natTotal (parts : List (List Nat)) : Nat :=
  (parts.map (fun q => alignNat q.length)).sum

/-- `Nat` form of `stackedStarts`. -/
def natStarts : List (List Nat) → Nat → List Nat
  | [], _ => []
  | q :: rest, off => off :: natStarts rest (off + alignNat q.length)

/-- `Nat` form of `stackedWrite`. -/
def natWrite : List (List Nat) → List Nat → Nat → List Nat
  | [], output, _ => output
  | q :: rest, output, off => natWrite rest (setBytes output q off) (off + alignNat q.length)

theorem alignNat_ge (n : Nat) : n ≤ alignNat n := by
  unfold alignNat
  omega

theorem alignNat_mod (n : Nat) : alignNat n % 256 = 0 := by
  unfold alignNat
  omega

theorem alignNat_lt (n : Nat) : alignNat n < n + 256 := by
  unfold alignNat
  omega

theorem stackedTotal_eq (parts : List (List Nat))
    (hsm : ∀ q ∈ parts, q.length + 255 < 2147483648) :
    ∀ off : Nat, stackedTotal parts (off : Int) = ((off + natTotal parts : Nat) : Int) := by
  induction parts with
  | nil => intro off; simp [stackedTotal, natTotal]
  | cons q rest ih =>
    intro off
    rw [stackedTotal, alignTo256_eq_of_small q.length (hsm q (List.mem_cons_self q rest))]
    have hc : (off : Int) + ((q.length + 255) / 256 * 256 : Nat) =
        ((off + alignNat q.length : Nat) : Int) := by
      unfold alignNat
      push_cast
      ring
    rw [hc, ih (fun r hr => hsm r (List.mem_cons_of_mem q hr))]
    congr 1
    simp only [natTotal, List.map_cons, List.sum_cons, alignNat]
    omega

theorem stackedStarts_eq (parts : List (List Nat))
    (hsm : ∀ q ∈ parts, q.length + 255 < 2147483648) :
    ∀ off : Nat,
      stackedStarts parts (off : Int) = (natStarts parts off).map Int.ofNat := by
  induction parts with
  | nil => intro off; simp [stackedStarts, natStarts]
  | cons q rest ih =>
    intro off
    rw [stackedStarts, alignTo256_eq_of_small q.length (hsm q (List.mem_cons_self q rest))]
    have hc : (off : Int) + ((q.length + 255) / 256 * 256 : Nat) =
        ((off + alignNat q.length : Nat) : Int) := by
      unfold alignNat
      push_cast
      ring
    rw [hc, ih (fun r hr => hsm r (List.mem_cons_of_mem q hr))]
    rfl

theorem stackedWrite_eq (parts : List (List Nat))
    (hsm : ∀ q ∈ parts, q.length + 255 < 2147483648) :
    ∀ (dst : List Nat) (off : Nat),
      stackedWrite parts dst (off : Int) = natWrite parts dst off := by
  induction parts with
  | nil => intro dst off; rfl
  | cons q rest ih =>
    intro dst off
    rw [stackedWrite, alignTo256_eq_of_small q.length (hsm q (List.mem_cons_self q rest))]
    have hc : (off : Int) + ((q.length + 255) / 256 * 256 : Nat) =
        ((off + alignNat q.length : Nat) : Int) := by
      unfold alignNat
      push_cast
      ring
    rw [hc, Int.toNat_ofNat, ih (fun r hr => hsm r (List.mem_cons_of_mem q hr))]
    rfl

theorem buildStacked_eq (parts : List (List Nat))
    (hsm : ∀ q ∈ parts, q.length + 255 < 2147483648) :
    buildStacked parts =
      { output := natWrite parts (List.replicate (natTotal parts) 0) 0
        starts := (natStarts parts 0).map Int.ofNat } := by
  unfold buildStacked
  have h0 : (0 : Int) = ((0 : Nat) : Int) := rfl
  rw [h0, stackedTotal_eq parts hsm 0, stackedStarts_eq parts hsm 0,
    Int.toNat_ofNat, stackedWrite_eq parts hsm _ 0]
  simp

theorem natStarts_length (parts : List (List Nat)) :
    ∀ off, (natStarts parts off).length = parts.length := by
  induction parts with
  | nil => intro off; rfl
  | cons q rest ih =>
    intro off
    rw [natStarts, List.length_cons, ih, List.length_cons]

theorem natStarts_getD (parts : List (List Nat)) :
    ∀ off i, i < parts.length →
      (natStarts parts off).getD i 0 = off + natTotal (parts.take i) := by
  induction parts with
  | nil => intro off i h; simp at h
  | cons q rest ih =>
    intro off i hi
    cases i with
    | zero => simp [natStarts, natTotal]
    | succ i =>
      rw [natStarts, List.getD_cons_succ,
        ih (off + alignNat q.length) i (by simpa using hi)]
      simp only [List.take_succ_cons, natTotal, List.map_cons, List.sum_cons]
      omega

theorem natWrite_length (parts : List (List Nat)) :
    ∀ dst off, off + natTotal parts ≤ dst.length →
      (natWrite parts dst off).length = dst.length := by
  induction parts with
  | nil => intro dst off _; rfl
  | cons q rest ih =>
    intro dst off hfit
    have htot : natTotal (q :: rest) = alignNat q.length + natTotal rest := by
      simp [natTotal]
    have hge := alignNat_ge q.length
    have hsb : (setBytes dst q off).length = dst.length :=
      setBytes_length dst q off (by omega)
    rw [natWrite, ih (setBytes dst q off) (off + alignNat q.length) (by omega), hsb]

theorem natWrite_getD_below (parts : List (List Nat)) :
    ∀ dst off pos, pos < off → off + natTotal parts ≤ dst.length →
      (natWrite parts dst off).getD pos 0 = dst.getD pos 0 := by
  induction parts with
  | nil => intro dst off pos _ _; rfl
  | cons q rest ih =>
    intro dst off pos hpos hfit
    have htot : natTotal (q :: rest) = alignNat q.length + natTotal rest := by
      simp [natTotal]
    have hge := alignNat_ge q.length
    have hsb : (setBytes dst q off).length = dst.length :=
      setBytes_length dst q off (by omega)
    rw [natWrite, ih (setBytes dst q off) (off + alignNat q.length) pos (by omega)
        (by omega)]
    exact setBytes_getD_outside dst q off pos (by omega) (Or.inl hpos)

theorem natWrite_getD_inside (parts : List (List Nat)) :
    ∀ dst off i j, off + natTotal parts ≤ dst.length → i < parts.length →
      j < (parts.getD i []).length →
      (natWrite parts dst off).getD (off + natTotal (parts.take i) + j) 0 =
        (parts.getD i []).getD j 0 := by
  induction parts with
  | nil => intro dst off i j _ hi _; simp at hi
  | cons q rest ih =>
    intro dst off i j hfit hi hj
    have htot : natTotal (q :: rest) = alignNat q.length + natTotal rest := by
      simp [natTotal]
    have hge := alignNat_ge q.length
    have hsb : (setBytes dst q off).length = dst.length :=
      setBytes_length dst q off (by omega)
    cases i with
    | zero =>
      have hj' : j < q.length := by simpa using hj
      rw [natWrite]
      have hpos : off + natTotal ((q :: rest).take 0) + j = off + j := by
        simp [natTotal]
      rw [hpos,
        natWrite_getD_below rest (setBytes dst q off) (off + alignNat q.length)
          (off + j) (by omega) (by omega),
        setBytes_getD_inside dst q off j (by omega) hj']
      rfl
    | succ i =>
      have hi' : i < rest.length := by simpa using hi
      have hj' : j < (rest.getD i []).length := by simpa using hj
      rw [natWrite]
      have hpos : off + natTotal ((q :: rest).take (i + 1)) + j =
          (off + alignNat q.length) + natTotal (rest.take i) + j := by
        simp only [List.take_succ_cons, natTotal, List.map_cons, List.sum_cons]
        omega
      rw [hpos,
        ih (setBytes dst q off) (off + alignNat q.length) i j (by omega) hi' hj']
      rfl

theorem natWrite_getD_padding (parts : List (List Nat)) :
    ∀ dst off pos, off + natTotal parts ≤ dst.length →
      (∀ i, i < parts.length →
        ¬(off + natTotal (parts.take i) ≤ pos ∧
          pos < off + natTotal (parts.take i) + (parts.getD i []).length)) →
      (natWrite parts dst off).getD pos 0 = dst.getD pos 0 := by
  induction parts with
  | nil => intro dst off pos _ _; rfl
  | cons q rest ih =>
    intro dst off pos hfit hout
    have htot : natTotal (q :: rest) = alignNat q.length + natTotal rest := by
      simp [natTotal]
    have hge := alignNat_ge q.length
    have hsb : (setBytes dst q off).length = dst.length :=
      setBytes_length dst q off (by omega)
    have h0 := hout 0 (by simp)
    have h0' : pos < off ∨ off + q.length ≤ pos := by
      simp [natTotal] at h0
      omega
    rw [natWrite,
      ih (setBytes dst q off) (off + alignNat q.length) pos (by omega) ?_,
      setBytes_getD_outside dst q off pos (by omega) h0']
    intro i hi
    have hir := hout (i + 1) (by simpa using Nat.succ_lt_succ hi)
    have hpos : off + natTotal ((q :: rest).take (i + 1)) =
        (off + alignNat q.length) + natTotal (rest.take i) := by
      simp only [List.take_succ_cons, natTotal, List.map_cons, List.sum_cons]
      omega
    rw [hpos] at hir
    simpa using hir

theorem alignSum_eq (parts : List (List Nat))
    (hsm : ∀ q ∈ parts, q.length + 255 < 2147483648) :
    (parts.map (fun q => alignTo256 (q.length : Int))).sum =
      ((natTotal parts : Nat) : Int) := by
  induction parts with
  | nil => simp [natTotal]
  | cons q rest ih =>
    rw [List.map_cons, List.sum_cons,
      alignTo256_eq_of_small q.length (hsm q (List.mem_cons_self q rest)),
      ih (fun r hr => hsm r (List.mem_cons_of_mem q hr))]
    simp only [natTotal, List.map_cons, List.sum_cons, alignNat]
    push_cast
    ring

/-- C6: `buildStacked` assigns each part the start offset
`Σ_{k<i} alignTo256(len_k)`, copies each part's bytes at its start offset
into an output buffer of total length `Σ alignTo256(len_k)`, and for the
raw lengths `[1200, 800, 400]` the aligned lengths are `[1280, 1024, 512]`,
the offsets `[0, 1280, 2304]`, and the rendered page offsets
(`start >> 8`, uppercase hex, two-digit minimum) `["00", "05", "09"]`. -/
theorem c6_buildStacked (parts : List (List Nat))
    (hsm : ∀ q ∈ parts, q.length + 255 < 2147483648) :
    ((buildStacked parts).starts.length = parts.length ∧
        (∀ i, i < parts.length →
          (buildStacked parts).starts.getD i 0 =
            ((parts.take i).map (fun q => alignTo256 (q.length : Int))).sum) ∧
        ((buildStacked parts).output.length : Int) =
          (parts.map (fun q => alignTo256 (q.length : Int))).sum ∧
        (∀ i, i < parts.length → ∀ j, j < (parts.getD i []).length →
          (buildStacked parts).output.getD
              (((buildStacked parts).starts.getD i 0).toNat + j) 0 =
            (parts.getD i []).getD j 0)) ∧
      ([List.replicate 1200 0, List.replicate 800 0, List.replicate 400 0] :
          List (List Nat)).map (fun q => alignTo256 (q.length : Int)) =
        [1280, 1024, 512] ∧
      (buildStacked [List.replicate 1200 0, List.replicate 800 0,
          List.replicate 400 0]).starts = [0, 1280, 2304] ∧
      (buildStacked [List.replicate 1200 0, List.replicate 800 0,
            List.replicate 400 0]).starts.map
          (fun b => formatOffsetHex (jsShr8 b)) = ["00", "05", "09"] := by
  have hfit : 0 + natTotal parts ≤ (List.replicate (natTotal parts) (0 : Nat)).length := by
    rw [List.length_replicate]
    omega
  have hstarts : ∀ i, i < parts.length →
      (buildStacked parts).starts.getD i 0 = ((natTotal (parts.take i) : Nat) : Int) := by
    intro i hi
    rw [buildStacked_eq parts hsm]
    show ((natStarts parts 0).map Int.ofNat).getD i 0 = _
    have hlen : i < (natStarts parts 0).length := by
      rw [natStarts_length]
      exact hi
    rw [List.getD_eq_getElem?_getD, List.getElem?_map, List.getElem?_eq_getElem hlen]
    show (Int.ofNat ((natStarts parts 0).get ⟨i, hlen⟩)) = _
    have := natStarts_getD parts 0 i hi
    rw [List.getD_eq_getElem?_getD, List.getElem?_eq_getElem hlen] at this
    simp only [Option.getD_some] at this
    rw [List.get_eq_getElem]
    rw [this]
    norm_num
  refine ⟨⟨?_, ?_, ?_, ?_⟩, ?_, ?_, ?_⟩
  · rw [buildStacked_eq parts hsm]
    show ((natStarts parts 0).map Int.ofNat).length = parts.length
    rw [List.length_map, natStarts_length]
  · intro i hi
    rw [hstarts i hi,
      alignSum_eq (parts.take i) (fun r hr => hsm r (List.take_subset i parts hr))]
  · rw [buildStacked_eq parts hsm]
    show ((natWrite parts (List.replicate (natTotal parts) 0) 0).length : Int) = _
    rw [natWrite_length parts _ 0 hfit, List.length_replicate, alignSum_eq parts hsm]
  · intro i hi j hj
    rw [hstarts i hi, buildStacked_eq parts hsm]
    show (natWrite parts (List.replicate (natTotal parts) 0) 0).getD
        (((natTotal (parts.take i) : Nat) : Int).toNat + j) 0 = _
    rw [Int.toNat_ofNat]
    have := natWrite_getD_inside parts (List.replicate (natTotal parts) 0) 0 i j
      hfit hi hj
    rw [show 0 + natTotal (parts.take i) + j = natTotal (parts.take i) + j from by omega]
      at this
    exact this
  · set_option maxRecDepth 40000 in decide
  · set_option maxRecDepth 40000 in decide
  · set_option maxRecDepth 40000 in decide

/-- `Nat` form of `equalWrite`. -/
def natEqualWrite : List (List Nat) → List Nat → Nat → Nat → List Nat
  | [], output, _, _ => output
  | q :: rest, output, slotN, i =>
    natEqualWrite rest (setBytes output q (i * slotN)) slotN (i + 1)

/-- The `Nat` value of the stacked-equal slot for a non-empty part list. -/
def natSlotOf (part : List Nat) (rest : List (List Nat)) : Nat :=
  (rest.map (fun q => alignNat q.length)).foldl max (alignNat part.length)

theorem nat_foldl_max_le (l : List Nat) :
    ∀ a : Nat, a ≤ l.foldl max a ∧ ∀ b ∈ l, b ≤ l.foldl max a := by
  induction l with
  | nil => intro a; exact ⟨le_refl a, by simp⟩
  | cons x rest ih =>
    intro a
    rw [List.foldl_cons]
    obtain ⟨h1, h2⟩ := ih (max a x)
    refine ⟨le_trans (le_max_left a x) h1, ?_⟩
    intro b hb
    rcases List.mem_cons.mp hb with rfl | hb
    · exact le_trans (le_max_right a b) h1
    · exact h2 b hb

theorem nat_foldl_max_mem (l : List Nat) :
    ∀ a : Nat, l.foldl max a = a ∨ l.foldl max a ∈ l := by
  induction l with
  | nil => intro a; left; rfl
  | cons x rest ih =>
    intro a
    rw [List.foldl_cons]
    rcases ih (max a x) with h | h
    · rcases Nat.le_total a x with hax | hax
      · right
        rw [h, Nat.max_eq_right hax]
        exact List.mem_cons_self x rest
      · left
        rw [h, Nat.max_eq_left hax]
    · right
      exact List.mem_cons_of_mem x h

theorem slot_cast (l : List (List Nat))
    (hsm : ∀ q ∈ l, q.length + 255 < 2147483648) :
    ∀ a : Nat,
      (l.map (fun q => alignTo256 (q.length : Int))).foldl max ((a : Nat) : Int) =
        (((l.map (fun q => alignNat q.length)).foldl max a : Nat) : Int) := by
  induction l with
  | nil => intro a; rfl
  | cons q rest ih =>
    intro a
    rw [List.map_cons, List.foldl_cons, List.map_cons, List.foldl_cons,
      alignTo256_eq_of_small q.length (hsm q (List.mem_cons_self q rest))]
    have hmax : max ((a : Nat) : Int) (((q.length + 255) / 256 * 256 : Nat) : Int) =
        ((max a (alignNat q.length) : Nat) : Int) := by
      unfold alignNat
      rw [Nat.cast_max]
    rw [hmax, ih (fun r hr => hsm r (List.mem_cons_of_mem q hr))]

theorem equalWrite_eq (parts : List (List Nat)) (slotN : Nat) :
    ∀ (dst : List Nat) (i : Nat),
      equalWrite parts dst ((slotN : Nat) : Int) i = natEqualWrite parts dst slotN i := by
  induction parts with
  | nil => intro dst i; rfl
  | cons q rest ih =>
    intro dst i
    rw [equalWrite]
    have hc : ((i : Int) * ((slotN : Nat) : Int)).toNat = i * slotN := by
      rw [show (i : Int) * ((slotN : Nat) : Int) = ((i * slotN : Nat) : Int) from by
        push_cast; ring, Int.toNat_ofNat]
    rw [hc, ih]
    rfl

theorem natEqualWrite_length (parts : List (List Nat)) (slotN : Nat)
    (hq : ∀ q ∈ parts, q.length ≤ slotN) :
    ∀ dst i0, (i0 + parts.length) * slotN ≤ dst.length →
      (natEqualWrite parts dst slotN i0).length = dst.length := by
  induction parts with
  | nil => intro dst i0 _; rfl
  | cons q rest ih =>
    intro dst i0 hfit
    have hstep : (i0 + 1) * slotN = i0 * slotN + slotN := by ring
    have hall : (i0 + (q :: rest).length) * slotN =
        (i0 + 1 + rest.length) * slotN := by
      rw [List.length_cons]
      ring_nf
    have hmono : (i0 + 1) * slotN ≤ (i0 + 1 + rest.length) * slotN :=
      Nat.mul_le_mul_right slotN (by omega)
    have hql := hq q (List.mem_cons_self q rest)
    have hsb : (setBytes dst q (i0 * slotN)).length = dst.length :=
      setBytes_length dst q (i0 * slotN) (by omega)
    rw [natEqualWrite,
      ih (fun r hr => hq r (List.mem_cons_of_mem q hr)) (setBytes dst q (i0 * slotN))
        (i0 + 1) (by omega), hsb]

theorem natEqualWrite_getD_below (parts : List (List Nat)) (slotN : Nat)
    (hq : ∀ q ∈ parts, q.length ≤ slotN) :
    ∀ dst i0 pos, pos < i0 * slotN → (i0 + parts.length) * slotN ≤ dst.length →
      (natEqualWrite parts dst slotN i0).getD pos 0 = dst.getD pos 0 := by
  induction parts with
  | nil => intro dst i0 pos _ _; rfl
  | cons q rest ih =>
    intro dst i0 pos hpos hfit
    have hstep : (i0 + 1) * slotN = i0 * slotN + slotN := by ring
    have hall : (i0 + (q :: rest).length) * slotN =
        (i0 + 1 + rest.length) * slotN := by
      rw [List.length_cons]
      ring_nf
    have hmono : (i0 + 1) * slotN ≤ (i0 + 1 + rest.length) * slotN :=
      Nat.mul_le_mul_right slotN (by omega)
    have hql := hq q (List.mem_cons_self q rest)
    have hsb : (setBytes dst q (i0 * slotN)).length = dst.length :=
      setBytes_length dst q (i0 * slotN) (by omega)
    rw [natEqualWrite,
      ih (fun r hr => hq r (List.mem_cons_of_mem q hr)) (setBytes dst q (i0 * slotN))
        (i0 + 1) pos (by omega) (by omega),
      setBytes_getD_outside dst q (i0 * slotN) pos (by omega) (Or.inl hpos)]

theorem natEqualWrite_getD_inside (parts : List (List Nat)) (slotN : Nat)
    (hq : ∀ q ∈ parts, q.length ≤ slotN) :
    ∀ dst i0 k j, (i0 + parts.length) * slotN ≤ dst.length → k < parts.length →
      j < (parts.getD k []).length →
      (natEqualWrite parts dst slotN i0).getD ((i0 + k) * slotN + j) 0 =
        (parts.getD k []).getD j 0 := by
  induction parts with
  | nil => intro dst i0 k j _ hk _; simp at hk
  | cons q rest ih =>
    intro dst i0 k j hfit hk hj
    have hstep : (i0 + 1) * slotN = i0 * slotN + slotN := by ring
    have hall : (i0 + (q :: rest).length) * slotN =
        (i0 + 1 + rest.length) * slotN := by
      rw [List.length_cons]
      ring_nf
    have hmono : (i0 + 1) * slotN ≤ (i0 + 1 + rest.length) * slotN :=
      Nat.mul_le_mul_right slotN (by omega)
    have hql := hq q (List.mem_cons_self q rest)
    have hsb : (setBytes dst q (i0 * slotN)).length = dst.length :=
      setBytes_length dst q (i0 * slotN) (by omega)
    cases k with
    | zero =>
      have hj' : j < q.length := by simpa using hj
      have hidx0 : (i0 + 0) * slotN + j = i0 * slotN + j := by ring
      rw [natEqualWrite, hidx0,
        natEqualWrite_getD_below rest slotN
          (fun r hr => hq r (List.mem_cons_of_mem q hr))
          (setBytes dst q (i0 * slotN)) (i0 + 1) (i0 * slotN + j) (by omega)
          (by omega),
        setBytes_getD_inside dst q (i0 * slotN) j (by omega) hj']
      rfl
    | succ k =>
      have hk' : k < rest.length := by simpa using hk
      have hj' : j < (rest.getD k []).length := by simpa using hj
      have hidx : (i0 + (k + 1)) * slotN + j = ((i0 + 1) + k) * slotN + j := by
        ring_nf
      rw [natEqualWrite, hidx,
        ih (fun r hr => hq r (List.mem_cons_of_mem q hr)) (setBytes dst q (i0 * slotN))
          (i0 + 1) k j (by omega) hk' hj']
      rfl

theorem natEqualWrite_getD_padding (parts : List (List Nat)) (slotN : Nat)
    (hq : ∀ q ∈ parts, q.length ≤ slotN) :
    ∀ dst i0 pos, (i0 + parts.length) * slotN ≤ dst.length →
      (∀ k, k < parts.length →
        ¬((i0 + k) * slotN ≤ pos ∧
          pos < (i0 + k) * slotN + (parts.getD k []).length)) →
      (natEqualWrite parts dst slotN i0).getD pos 0 = dst.getD pos 0 := by
  induction parts with
  | nil => intro dst i0 pos _ _; rfl
  | cons q rest ih =>
    intro dst i0 pos hfit hout
    have hstep : (i0 + 1) * slotN = i0 * slotN + slotN := by ring
    have hall : (i0 + (q :: rest).length) * slotN =
        (i0 + 1 + rest.length) * slotN := by
      rw [List.length_cons]
      ring_nf
    have hmono : (i0 + 1) * slotN ≤ (i0 + 1 + rest.length) * slotN :=
      Nat.mul_le_mul_right slotN (by omega)
    have hql := hq q (List.mem_cons_self q rest)
    have hsb : (setBytes dst q (i0 * slotN)).length = dst.length :=
      setBytes_length dst q (i0 * slotN) (by omega)
    have h0 := hout 0 (by simp)
    rw [Nat.add_zero] at h0
    have h0' : pos < i0 * slotN ∨ i0 * slotN + q.length ≤ pos := by
      simp only [List.getD_cons_zero] at h0
      omega
    rw [natEqualWrite,
      ih (fun r hr => hq r (List.mem_cons_of_mem q hr)) (setBytes dst q (i0 * slotN))
        (i0 + 1) pos (by omega) ?_,
      setBytes_getD_outside dst q (i0 * slotN) pos (by omega) h0']
    intro k hk
    have hkr := hout (k + 1) (by simpa using Nat.succ_lt_succ hk)
    have hidx : (i0 + (k + 1)) * slotN = ((i0 + 1) + k) * slotN := by
      ring_nf
    rw [hidx] at hkr
    simpa using hkr

theorem natSlot_cast (part : List Nat) (rest : List (List Nat))
    (hsm : ∀ q ∈ part :: rest, q.length + 255 < 2147483648) :
    (rest.map (fun q => alignTo256 (q.length : Int))).foldl max
        (alignTo256 (part.length : Int)) =
      ((natSlotOf part rest : Nat) : Int) := by
  rw [alignTo256_eq_of_small part.length (hsm part (List.mem_cons_self part rest))]
  exact slot_cast rest (fun r hr => hsm r (List.mem_cons_of_mem part hr))
    (alignNat part.length)

theorem buildStackedEqual_eq (part : List Nat) (rest : List (List Nat))
    (hsm : ∀ q ∈ part :: rest, q.length + 255 < 2147483648) :
    buildStackedEqual (part :: rest) =
      { output := natEqualWrite (part :: rest)
          (List.replicate ((part :: rest).length * natSlotOf part rest) 0)
          (natSlotOf part rest) 0
        starts := (List.range (part :: rest).length).map
          (fun i => ((i * natSlotOf part rest : Nat) : Int))
        slot := ((natSlotOf part rest : Nat) : Int) } := by
  simp only [buildStackedEqual]
  rw [natSlot_cast part rest hsm]
  have hc : (((part :: rest).length : Int) * ((natSlotOf part rest : Nat) : Int)).toNat =
      (part :: rest).length * natSlotOf part rest := by
    rw [show ((part :: rest).length : Int) * ((natSlotOf part rest : Nat) : Int) =
        (((part :: rest).length * natSlotOf part rest : Nat) : Int) from by
          push_cast; ring,
      Int.toNat_ofNat]
  rw [hc, equalWrite_eq]
  have hst : (List.range (part :: rest).length).map
      (fun i : Nat => (i : Int) * ((natSlotOf part rest : Nat) : Int)) =
      (List.range (part :: rest).length).map
        (fun i : Nat => ((i * natSlotOf part rest : Nat) : Int)) := by
    apply List.map_congr_left
    intro i _
    push_cast
    ring
  rw [hst]

/-- C7: `buildStackedEqual` uses the slot `max_i alignTo256(len_i)`, places
segment `i` at `i * slot`, and allocates `parts.length * slot` bytes; the
empty list yields an empty buffer, slot 0 and no offsets; and for raw
lengths `[1200, 800, 400]` the slot is 1280, the offsets `[0, 1280, 2560]`,
the hex page offsets `["00", "05", "0A"]`, and the buffer 3840 bytes. -/
theorem c7_buildStackedEqual (parts : List (List Nat))
    (hsm : ∀ q ∈ parts, q.length + 255 < 2147483648) (hne : parts ≠ []) :
    ((∀ q ∈ parts, alignTo256 (q.length : Int) ≤ (buildStackedEqual parts).slot) ∧
        (∃ q ∈ parts, (buildStackedEqual parts).slot = alignTo256 (q.length : Int)) ∧
        (buildStackedEqual parts).starts.length = parts.length ∧
        (∀ i, i < parts.length →
          (buildStackedEqual parts).starts.getD i 0 =
            (i : Int) * (buildStackedEqual parts).slot) ∧
        ((buildStackedEqual parts).output.length : Int) =
          (parts.length : Int) * (buildStackedEqual parts).slot ∧
        (∀ i, i < parts.length → ∀ j, j < (parts.getD i []).length →
          (buildStackedEqual parts).output.getD
              (((buildStackedEqual parts).starts.getD i 0).toNat + j) 0 =
            (parts.getD i []).getD j 0)) ∧
      buildStackedEqual [] = { output := [], starts := [], slot := 0 } ∧
      (buildStackedEqual [List.replicate 1200 0, List.replicate 800 0,
          List.replicate 400 0]).slot = 1280 ∧
      (buildStackedEqual [List.replicate 1200 0, List.replicate 800 0,
          List.replicate 400 0]).starts = [0, 1280, 2560] ∧
      (buildStackedEqual [List.replicate 1200 0, List.replicate 800 0,
            List.replicate 400 0]).starts.map
          (fun b => formatOffsetHex (jsShr8 b)) = ["00", "05", "0A"] ∧
      (buildStackedEqual [List.replicate 1200 0, List.replicate 800 0,
          List.replicate 400 0]).output.length = 3840 := by
  refine ⟨?_, rfl, ?_, ?_, ?_, ?_⟩
  · obtain ⟨part, rest, rfl⟩ : ∃ part rest, parts = part :: rest := by
      cases parts with
      | nil => exact absurd rfl hne
      | cons part rest => exact ⟨part, rest, rfl⟩
    have heq := buildStackedEqual_eq part rest hsm
    have hslotle : ∀ q ∈ part :: rest, alignNat q.length ≤ natSlotOf part rest := by
      intro q hq
      rcases List.mem_cons.mp hq with rfl | hq
      · exact (nat_foldl_max_le _ (alignNat q.length)).1
      · exact (nat_foldl_max_le _ (alignNat part.length)).2 _
          (List.mem_map_of_mem _ hq)
    have hlenle : ∀ q ∈ part :: rest, q.length ≤ natSlotOf part rest :=
      fun q hq => le_trans (alignNat_ge q.length) (hslotle q hq)
    have hfit : (0 + (part :: rest).length) * natSlotOf part rest ≤
        (List.replicate ((part :: rest).length * natSlotOf part rest)
          (0 : Nat)).length := by
      rw [List.length_replicate]
      exact Nat.mul_le_mul_right _ (by omega)
    have hstl : (buildStackedEqual (part :: rest)).starts.length =
        (part :: rest).length := by
      rw [heq]
      show ((List.range (part :: rest).length).map
        (fun i : Nat => ((i * natSlotOf part rest : Nat) : Int))).length = _
      rw [List.length_map, List.length_range]
    have hstg : ∀ i, i < (part :: rest).length →
        (buildStackedEqual (part :: rest)).starts.getD i 0 =
          ((i * natSlotOf part rest : Nat) : Int) := by
      intro i hi
      rw [heq]
      show ((List.range (part :: rest).length).map
        (fun i : Nat => ((i * natSlotOf part rest : Nat) : Int))).getD i 0 = _
      have hir : i < (List.range (part :: rest).length).length := by
        rw [List.length_range]
        exact hi
      rw [List.getD_eq_getElem?_getD, List.getElem?_map,
        List.getElem?_eq_getElem hir]
      simp [List.getElem_range]
    have hslot : (buildStackedEqual (part :: rest)).slot =
        ((natSlotOf part rest : Nat) : Int) := by
      rw [heq]
    refine ⟨?_, ?_, hstl, ?_, ?_, ?_⟩
    · intro q hq
      rw [hslot, alignTo256_eq_of_small q.length (hsm q hq)]
      exact_mod_cast hslotle q hq
    · rcases nat_foldl_max_mem (rest.map (fun q => alignNat q.length))
        (alignNat part.length) with hm | hm
      · refine ⟨part, List.mem_cons_self part rest, ?_⟩
        rw [hslot, alignTo256_eq_of_small part.length
          (hsm part (List.mem_cons_self part rest))]
        unfold natSlotOf
        rw [hm]
        rfl
      · rcases List.mem_map.mp hm with ⟨q, hq, hv⟩
        refine ⟨q, List.mem_cons_of_mem part hq, ?_⟩
        rw [hslot, alignTo256_eq_of_small q.length
          (hsm q (List.mem_cons_of_mem part hq))]
        unfold natSlotOf
        rw [← hv]
        rfl
    · intro i hi
      rw [hstg i hi, hslot]
      push_cast
      ring
    · rw [heq]
      show ((natEqualWrite (part :: rest)
        (List.replicate ((part :: rest).length * natSlotOf part rest) 0)
        (natSlotOf part rest) 0).length : Int) =
        ((part :: rest).length : Int) * ((natSlotOf part rest : Nat) : Int)
      rw [natEqualWrite_length (part :: rest) (natSlotOf part rest) hlenle _ 0 hfit,
        List.length_replicate]
      push_cast
      ring
    · intro i hi j hj
      rw [hstg i hi, Int.toNat_ofNat, heq]
      show (natEqualWrite (part :: rest)
          (List.replicate ((part :: rest).length * natSlotOf part rest) 0)
          (natSlotOf part rest) 0).getD (i * natSlotOf part rest + j) 0 = _
      have := natEqualWrite_getD_inside (part :: rest) (natSlotOf part rest)
        hlenle (List.replicate ((part :: rest).length * natSlotOf part rest) 0)
        0 i j hfit hi hj
      rw [show (0 + i) * natSlotOf part rest + j = i * natSlotOf part rest + j
        from by ring] at this
      exact this
  · set_option maxRecDepth 40000 in decide
  · set_option maxRecDepth 40000 in decide
  · set_option maxRecDepth 40000 in decide
  · have hsmc : ∀ q ∈ ([List.replicate 1200 0, List.replicate 800 0,
        List.replicate 400 0] : List (List Nat)), q.length + 255 < 2147483648 := by
      set_option maxRecDepth 40000 in decide
    have hl : ∀ q ∈ ([List.replicate 1200 0, List.replicate 800 0,
        List.replicate 400 0] : List (List Nat)),
        q.length ≤ natSlotOf (List.replicate 1200 0)
          [List.replicate 800 0, List.replicate 400 0] := by
      set_option maxRecDepth 40000 in decide
    rw [buildStackedEqual_eq (List.replicate 1200 0)
      [List.replicate 800 0, List.replicate 400 0] hsmc]
    show (natEqualWrite
      [List.replicate 1200 0, List.replicate 800 0, List.replicate 400 0]
      (List.replicate
        (([List.replicate 1200 0, List.replicate 800 0, List.replicate 400 0] :
            List (List Nat)).length *
          natSlotOf (List.replicate 1200 0)
            [List.replicate 800 0, List.replicate 400 0]) 0)
      (natSlotOf (List.replicate 1200 0)
        [List.replicate 800 0, List.replicate 400 0]) 0).length = 3840
    rw [natEqualWrite_length _ _ hl _ 0
        (by rw [List.length_replicate]; exact Nat.mul_le_mul_right _ (by omega)),
      List.length_replicate]
    set_option maxRecDepth 40000 in decide

/-! ### 8SVX container serializer (`createEightSVXFile` from `apps/cli/src/cli.ts`)

The CLI writes the file as consecutive `writeSync` calls at positions
0, 12, 40, `40 + 8 + nameChunkSize` and onward; the buffers are
contiguous, so the file is modelled as the concatenation of the header
buffers followed by the per-segment sample buffers. -/

/-- The fields of `SampleSegment` the serializer reads. -/
structure SampleSegment where
  targetHz : Nat
  paddedLengthBytes : Nat
  sampleData : List Nat

/-- ASCII bytes of a string (`Buffer.write(s)`). -/
def strBytes (s : String) : List Nat := s.data.map Char.toNat

/-- `writeUInt32BE`. -/
def u32be (n : Nat) : List Nat :=
  [n / 16777216 % 256, n / 65536 % 256, n / 256 % 256, n % 256]

/-- `writeUInt16BE`. -/
def u16be (n : Nat) : List Nat := [n / 256 % 256, n % 256]

/-- One segment's sample buffer: `Buffer.alloc(paddedLengthBytes, 0x80)`
then `fill(sampleData, 0, min(sampleData.length, paddedLengthBytes))`. -/
def segBytes (seg : SampleSegment) : List Nat :=
  let m := min seg.sampleData.length seg.paddedLengthBytes
  seg.sampleData.take m ++ List.replicate (seg.paddedLengthBytes - m) 0x80

/-- The FORM/VHDR/NAME headers and the BODY chunk header, as written at
file positions 0, 12, 40 and `40 + 8 + nameChunkSize`. -/
def eightSVXHeader (segments : List SampleSegment) : List Nat :=
  let name := "wav2amiga"
  let nameChunkSize := (jsBitAnd ((name.length : Int) + 1) (-2)).toNat
  let totalSize := 8 + (4 + 4 + 20) + (4 + 4 + nameChunkSize) + 8 +
    (segments.map (fun s => s.paddedLengthBytes)).sum
  let samplesPerSec :=
    match segments with
    | [] => 0
    | s :: _ => s.targetHz
  strBytes "FORM" ++ u32be (totalSize - 8) ++ strBytes "8SVX" ++
    (strBytes "VHDR" ++ u32be 20 ++ u32be 0 ++ u32be 0 ++ u32be 0 ++
      u32be samplesPerSec ++ u16be 1 ++ u16be 0) ++
    (strBytes "NAME" ++ u32be nameChunkSize ++ strBytes name ++
      List.replicate (nameChunkSize - name.length) 0) ++
    (strBytes "BODY" ++
      u32be (totalSize - 8 - 28 - (8 + nameChunkSize) - 8))

/-- The full emitted container. -/
def eightSVXFile (segments : List SampleSegment) : List Nat :=
  eightSVXHeader segments ++ (segments.map segBytes).join

/-- Big-endian 32-bit read at a byte offset. -/
def readU32BE (l : List Nat) (off : Nat) : Nat :=
  l.getD off 0 * 16777216 + l.getD (off + 1) 0 * 65536 +
    l.getD (off + 2) 0 * 256 + l.getD (off + 3) 0

theorem eightSVXHeader_length (segments : List SampleSegment) :
    (eightSVXHeader segments).length = 66 := by
  unfold eightSVXHeader
  simp [strBytes, u32be, u16be]
  decide

theorem segBytes_length (seg : SampleSegment) :
    (segBytes seg).length = seg.paddedLengthBytes := by
  unfold segBytes
  rw [List.length_append, List.length_take, List.length_replicate]
  omega

theorem segBytes_getD_pad (seg : SampleSegment) (j : Nat)
    (h1 : seg.sampleData.length ≤ j) (h2 : j < seg.paddedLengthBytes) :
    (segBytes seg).getD j 0 = 128 := by
  unfold segBytes
  have hm : min seg.sampleData.length seg.paddedLengthBytes =
      seg.sampleData.length := by omega
  rw [hm]
  have hlt : (seg.sampleData.take seg.sampleData.length).length =
      seg.sampleData.length := by
    rw [List.length_take]
    omega
  rw [List.getD_eq_getElem?_getD, List.getElem?_append_right (by omega), hlt,
    List.getElem?_replicate_of_lt (by omega)]
  rfl

theorem join_getD_inside (ls : List (List Nat)) :
    ∀ i j, i < ls.length → j < (ls.getD i []).length →
      ls.join.getD (((ls.take i).map List.length).sum + j) 0 =
        (ls.getD i []).getD j 0 := by
  induction ls with
  | nil => intro i j hi _; simp at hi
  | cons u rest ih =>
    intro i j hi hj
    cases i with
    | zero =>
      have hj' : j < u.length := by simpa using hj
      rw [List.join]
      show (u ++ rest.join).getD ((([] : List (List Nat)).map List.length).sum + j) 0 = _
      rw [List.getD_eq_getElem?_getD]
      have hidx : (([] : List (List Nat)).map List.length).sum + j = j := by simp
      rw [hidx, List.getElem?_append_left hj', List.getD_cons_zero,
        List.getD_eq_getElem?_getD]
    | succ i =>
      have hi' : i < rest.length := by simpa using hi
      have hj' : j < (rest.getD i []).length := by simpa using hj
      rw [List.join]
      show (u ++ rest.join).getD
        ((((u :: rest).take (i + 1)).map List.length).sum + j) 0 = _
      have hidx : (((u :: rest).take (i + 1)).map List.length).sum + j =
          u.length + (((rest.take i).map List.length).sum + j) := by
        rw [List.take_succ_cons, List.map_cons, List.sum_cons]
        omega
      rw [hidx, List.getD_eq_getElem?_getD, List.getElem?_append_right (by omega)]
      have hsub : u.length + (((rest.take i).map List.length).sum + j) - u.length =
          ((rest.take i).map List.length).sum + j := by omega
      rw [hsub, ← List.getD_eq_getElem?_getD]
      exact ih i j hi' hj'

/-- C3 evaluated at the failing input (one segment, 256 padded bytes,
rate 8287): the serializer's big-endian fields put the first segment's
rate at offset 32 and the payload length at offset 62, but the FORM size
field at offset 4 is `310 = fileLength - 12`, not `fileLength - 8 = 314`
as the claim (and the code's own `// Total file size - 8` comment)
require: `totalSize` counts the 12-byte FORM header as 8 bytes. -/
theorem c3_form_size_bug :
    (eightSVXFile [⟨8287, 256, [1]⟩]).length = 322 ∧
      readU32BE (eightSVXFile [⟨8287, 256, [1]⟩]) 4 = 310 ∧
      (310 : Nat) ≠ 322 - 8 ∧
      (310 : Nat) = 322 - 12 ∧
      readU32BE (eightSVXFile [⟨8287, 256, [1]⟩]) 32 = 8287 ∧
      readU32BE (eightSVXFile [⟨8287, 256, [1]⟩]) 62 = 256 := by
  refine ⟨?_, ?_, by decide, by decide, ?_, ?_⟩ <;>
    set_option maxRecDepth 40000 in decide

/-- C1 counterexample: the claim says every padding byte of the emitted
container is 0x00, but the serializer fills each segment's padded tail
with 0x80: for a one-byte segment padded to 256 bytes, the byte right
after the payload (file offset 67) is 128. -/
theorem c1_padding_counterexample :
    (eightSVXFile [⟨8287, 256, [1]⟩]).getD 67 0 = 128 ∧ (128 : Nat) ≠ 0 :=
  ⟨by set_option maxRecDepth 40000 in decide, by decide⟩

theorem natStarts_mod (parts : List (List Nat)) :
    ∀ off, off % 256 = 0 → ∀ n ∈ natStarts parts off, n % 256 = 0 := by
  induction parts with
  | nil => intro off _ n hn; simp [natStarts] at hn
  | cons q rest ih =>
    intro off hoff n hn
    rw [natStarts] at hn
    rcases List.mem_cons.mp hn with rfl | hn
    · exact hoff
    · refine ih (off + alignNat q.length) ?_ n hn
      have := alignNat_mod q.length
      omega

theorem replicate_getD_zero (n pos : Nat) :
    (List.replicate n (0 : Nat)).getD pos 0 = 0 := by
  rw [List.getD_eq_getElem?_getD]
  rcases Nat.lt_or_ge pos n with h | h
  · rw [List.getElem?_replicate_of_lt h]
    rfl
  · rw [List.getElem?_eq_none]
    · rfl
    · rw [List.length_replicate]
      omega

theorem buildStacked_starts_getD (parts : List (List Nat))
    (hsm : ∀ q ∈ parts, q.length + 255 < 2147483648) (i : Nat)
    (hi : i < parts.length) :
    (buildStacked parts).starts.getD i 0 = ((natTotal (parts.take i) : Nat) : Int) := by
  rw [buildStacked_eq parts hsm]
  show ((natStarts parts 0).map Int.ofNat).getD i 0 = _
  have hlen : i < (natStarts parts 0).length := by
    rw [natStarts_length]
    exact hi
  rw [List.getD_eq_getElem?_getD, List.getElem?_map, List.getElem?_eq_getElem hlen]
  show (Int.ofNat ((natStarts parts 0).get ⟨i, hlen⟩)) = _
  have := natStarts_getD parts 0 i hi
  rw [List.getD_eq_getElem?_getD, List.getElem?_eq_getElem hlen] at this
  simp only [Option.getD_some] at this
  rw [List.get_eq_getElem, this]
  norm_num

theorem buildStackedEqual_starts_getD (part : List Nat) (rest : List (List Nat))
    (hsm : ∀ q ∈ part :: rest, q.length + 255 < 2147483648) (i : Nat)
    (hi : i < (part :: rest).length) :
    (buildStackedEqual (part :: rest)).starts.getD i 0 =
      ((i * natSlotOf part rest : Nat) : Int) := by
  rw [buildStackedEqual_eq part rest hsm]
  show ((List.range (part :: rest).length).map
    (fun i : Nat => ((i * natSlotOf part rest : Nat) : Int))).getD i 0 = _
  have hir : i < (List.range (part :: rest).length).length := by
    rw [List.length_range]
    exact hi
  rw [List.getD_eq_getElem?_getD, List.getElem?_map, List.getElem?_eq_getElem hir]
  simp [List.getElem_range]

/-- C1 (amended): every start offset produced by the stacking engine (in
both layouts) is a multiple of 256, and every byte of the engine's output
buffers not covered by a segment's payload is 0x00; however, in the
emitted container the serializer fills each segment's padded tail with
0x80 rather than 0x00 (see the counterexample). -/
theorem c1_alignment_and_padding (parts : List (List Nat))
    (hsm : ∀ q ∈ parts, q.length + 255 < 2147483648)
    (segments : List SampleSegment) :
    (∀ v ∈ (buildStacked parts).starts, v % 256 = 0) ∧
      (∀ v ∈ (buildStackedEqual parts).starts, v % 256 = 0) ∧
      (∀ pos, pos < (buildStacked parts).output.length →
        (∀ i, i < parts.length →
          ¬(((buildStacked parts).starts.getD i 0).toNat ≤ pos ∧
            pos < ((buildStacked parts).starts.getD i 0).toNat +
              (parts.getD i []).length)) →
        (buildStacked parts).output.getD pos 0 = 0) ∧
      (∀ pos, pos < (buildStackedEqual parts).output.length →
        (∀ i, i < parts.length →
          ¬(((buildStackedEqual parts).starts.getD i 0).toNat ≤ pos ∧
            pos < ((buildStackedEqual parts).starts.getD i 0).toNat +
              (parts.getD i []).length)) →
        (buildStackedEqual parts).output.getD pos 0 = 0) ∧
      (∀ i, i < segments.length → ∀ j,
        (segments.getD i ⟨0, 0, []⟩).sampleData.length ≤ j →
        j < (segments.getD i ⟨0, 0, []⟩).paddedLengthBytes →
        (eightSVXFile segments).getD
          (66 + ((segments.take i).map (fun s => s.paddedLengthBytes)).sum + j) 0 =
          128) := by
  refine ⟨?_, ?_, ?_, ?_, ?_⟩
  · intro v hv
    have hv' : v ∈ (natStarts parts 0).map Int.ofNat := by
      rw [buildStacked_eq parts hsm] at hv
      exact hv
    rcases List.mem_map.mp hv' with ⟨n, hn, rfl⟩
    have hmod := natStarts_mod parts 0 (by norm_num) n hn
    show ((n : Nat) : Int) % 256 = 0
    omega
  · cases parts with
    | nil => intro v hv; simp [buildStackedEqual] at hv
    | cons part rest =>
      intro v hv
      have hv' : v ∈ (List.range (part :: rest).length).map
          (fun i : Nat => ((i * natSlotOf part rest : Nat) : Int)) := by
        rw [buildStackedEqual_eq part rest hsm] at hv
        exact hv
      rcases List.mem_map.mp hv' with ⟨i, _, rfl⟩
      have hslotmod : natSlotOf part rest % 256 = 0 := by
        unfold natSlotOf
        rcases nat_foldl_max_mem (rest.map (fun q => alignNat q.length))
          (alignNat part.length) with hm | hm
        · rw [hm]
          exact alignNat_mod part.length
        · rcases List.mem_map.mp hm with ⟨q, _, hv2⟩
          rw [← hv2]
          exact alignNat_mod q.length
      obtain ⟨t, ht⟩ := Nat.dvd_of_mod_eq_zero hslotmod
      show ((i * natSlotOf part rest : Nat) : Int) % 256 = 0
      rw [ht, show i * (256 * t) = 256 * (i * t) from by ring]
      obtain ⟨m, hm2⟩ : ∃ m, i * t = m := ⟨_, rfl⟩
      rw [hm2]
      omega
  · intro pos hpos hout
    have hfit : 0 + natTotal parts ≤
        (List.replicate (natTotal parts) (0 : Nat)).length := by
      rw [List.length_replicate]
      omega
    have hout' : ∀ i, i < parts.length →
        ¬(0 + natTotal (parts.take i) ≤ pos ∧
          pos < 0 + natTotal (parts.take i) + (parts.getD i []).length) := by
      intro i hi
      have hst := buildStacked_starts_getD parts hsm i hi
      have hthis := hout i hi
      rw [hst, Int.toNat_ofNat] at hthis
      intro hcon
      exact hthis ⟨by omega, by omega⟩
    rw [buildStacked_eq parts hsm]
    show (natWrite parts (List.replicate (natTotal parts) 0) 0).getD pos 0 = 0
    rw [natWrite_getD_padding parts (List.replicate (natTotal parts) 0) 0 pos
      hfit hout']
    exact replicate_getD_zero _ _
  · cases parts with
    | nil =>
      intro pos hpos _
      simp [buildStackedEqual] at hpos
    | cons part rest =>
      intro pos hpos hout
      have hlenle : ∀ q ∈ part :: rest, q.length ≤ natSlotOf part rest := by
        intro q hq
        refine le_trans (alignNat_ge q.length) ?_
        rcases List.mem_cons.mp hq with rfl | hq
        · exact (nat_foldl_max_le _ (alignNat q.length)).1
        · exact (nat_foldl_max_le _ (alignNat part.length)).2 _
            (List.mem_map_of_mem _ hq)
      have hfit : (0 + (part :: rest).length) * natSlotOf part rest ≤
          (List.replicate ((part :: rest).length * natSlotOf part rest)
            (0 : Nat)).length := by
        rw [List.length_replicate]
        exact Nat.mul_le_mul_right _ (by omega)
      have hout' : ∀ k, k < (part :: rest).length →
          ¬((0 + k) * natSlotOf part rest ≤ pos ∧
            pos < (0 + k) * natSlotOf part rest +
              ((part :: rest).getD k []).length) := by
        intro k hk
        have hst := buildStackedEqual_starts_getD part rest hsm k hk
        have hthis := hout k hk
        rw [hst, Int.toNat_ofNat] at hthis
        have hzk : (0 + k) * natSlotOf part rest = k * natSlotOf part rest := by
          ring
        rw [hzk]
        exact hthis
      rw [buildStackedEqual_eq part rest hsm]
      show (natEqualWrite (part :: rest)
        (List.replicate ((part :: rest).length * natSlotOf part rest) 0)
        (natSlotOf part rest) 0).getD pos 0 = 0
      rw [natEqualWrite_getD_padding (part :: rest) (natSlotOf part rest) hlenle
        (List.replicate ((part :: rest).length * natSlotOf part rest) 0) 0 pos
        hfit hout']
      exact replicate_getD_zero _ _
  · intro i hi j hj1 hj2
    have hseg0 : segments.getD i ⟨0, 0, []⟩ = segments[i] := by
      rw [List.getD_eq_getElem?_getD, List.getElem?_eq_getElem hi]
      rfl
    have him : i < (segments.map segBytes).length := by
      rw [List.length_map]
      exact hi
    have hseg : (segments.map segBytes).getD i [] =
        segBytes (segments.getD i ⟨0, 0, []⟩) := by
      rw [List.getD_eq_getElem?_getD, List.getElem?_map,
        List.getElem?_eq_getElem hi, hseg0]
      rfl
    have hjlen : j < ((segments.map segBytes).getD i []).length := by
      rw [hseg, segBytes_length]
      exact hj2
    have hP : (((segments.map segBytes).take i).map List.length).sum =
        ((segments.take i).map (fun s => s.paddedLengthBytes)).sum := by
      rw [← List.map_take, List.map_map]
      congr 1
      apply List.map_congr_left
      intro s _
      exact segBytes_length s
    have hj := join_getD_inside (segments.map segBytes) i j him hjlen
    rw [hseg, hP] at hj
    unfold eightSVXFile
    rw [List.getD_eq_getElem?_getD,
      List.getElem?_append_right (by rw [eightSVXHeader_length]; omega),
      eightSVXHeader_length,
      show 66 + ((segments.take i).map (fun s => s.paddedLengthBytes)).sum + j - 66 =
        ((segments.take i).map (fun s => s.paddedLengthBytes)).sum + j from by omega,
      ← List.getD_eq_getElem?_getD, hj]
    exact segBytes_getD_pad _ j hj1 hj2

/-- Witness for C6 at `parts = [[1], [2, 3]]`. -/
theorem c6_buildStacked_witness :
    (buildStacked [[(1 : Nat)], [2, 3]]).starts.length =
      ([[(1 : Nat)], [2, 3]] : List (List Nat)).length :=
  (c6_buildStacked [[(1 : Nat)], [2, 3]] (by decide)).1.1

/-- Witness for C7 at `parts = [[1], [2, 3]]`. -/
theorem c7_buildStackedEqual_witness :
    (buildStackedEqual [[(1 : Nat)], [2, 3]]).starts.length =
      ([[(1 : Nat)], [2, 3]] : List (List Nat)).length :=
  (c7_buildStackedEqual [[(1 : Nat)], [2, 3]] (by decide) (by decide)).1.2.2.1

/-- Witness for the amended C1 theorem: a one-byte segment padded to two
bytes has serializer fill 0x80 at the byte after its payload. -/
theorem c1_alignment_and_padding_witness :
    (eightSVXFile [⟨1, 2, [9]⟩]).getD 67 0 = 128 := by
  have h := (c1_alignment_and_padding [] (by simp) [⟨1, 2, [9]⟩]).2.2.2.2
    0 (by decide) 1 (by decide) (by decide)
  simpa using h

end Wav2Amiga
